import Mathlib

/-!
# Packed bit view and owning bit vector

A shallow embedding of `bitspan<>`, `bit_ref<>`, `bitspan_iter<>`, `bitvec<>`
and `indices` (the default instantiation: `W = uintptr_t`, a 64-bit word, with
a 64-bit `size_t` and a 32-bit `int`).

* Words and `size_t` values are natural numbers; every operation that can wrap
  is written with an explicit `% 2 ^ 64`.
* Memory reachable through a `_base` pointer is the list of the words of the
  allocation it points into; an access outside of it is the outcome
  `Exc.undefined_behaviour`.
* A thrown exception is the `Except.error` outcome carrying its kind. Where a
  statement is about the state an exception leaves behind, the call is given a
  second time with an `outcome`, which carries that state.
* A loop without a bound known beforehand takes a number of rounds and yields
  `none` when they are used up.
* What the language leaves open is a field of `platform`: whether the allocator
  satisfies a request, what an uninitialised word holds, and what the `int`
  expression `(1 << k) - 1` yields for a shift count `k > 30`.
-/

set_option autoImplicit false

/-- Kinds of failure: the exceptions the library throws, and undefined behaviour. -/
inductive Exc where
  | out_of_range
  | bitspan_length_mismatch
  | bitspan_bitcount_overflow
  | bitspan_word_count_overflow
  | bad_array_new_length
  | bad_alloc
  | undefined_behaviour
  deriving DecidableEq, Repr

/-- What the program text does not determine. -/
structure platform where
  /-- The word that `(1 << k) - 1` converts to for a shift count `k > 30`. -/
  wide_mask : Nat → Nat
  /-- Whether `malloc`/`realloc` satisfies a request of that many bytes. -/
  grants : Nat → Bool
  /-- The content of the uninitialised word at that index of a fresh block. -/
  junk : Nat → Nat

/-- The number of values of `size_t` and of a word: `SIZE_MAX + 1`. -/
def size_mod : Nat := 2 ^ 64

/-- The constant `SIZE_MAX`. -/
def SIZE_MAX : Nat := 2 ^ 64 - 1

/-- The constant `sizeof(W)`. -/
def sizeof_W : Nat := 8

/-- The function `throwing_add<size_t, Exc>`. -/
def throwing_add (e : Exc) (a b : Nat) : Except Exc Nat :=
  if a + b ≥ size_mod then .error e else .ok (a + b)

/-- The function `throwing_mul<size_t, Exc>`. -/
def throwing_mul (e : Exc) (a b : Nat) : Except Exc Nat :=
  if a * b ≥ size_mod then .error e else .ok (a * b)

/-- The constant `bits_per_word`. -/
def bits_per_word : Nat := 64

/-- The constant `majshift = bit_width(bits_per_word) - 1`. -/
def majshift : Nat := 6

/-- The constant `minmask = bits_per_word - 1`. -/
def minmask : Nat := 63

/-- The function `maj_bi`: `i >> majshift`. -/
def maj_bi (i : Nat) : Nat := i >>> majshift

/-- The function `min_bi`: `i & minmask`. -/
def min_bi (i : Nat) : Nat := i &&& minmask

/-- The function `bits_in_words`. -/
def bits_in_words (num_words : Nat) : Except Exc Nat :=
  throwing_mul .bitspan_bitcount_overflow num_words bits_per_word

/-- The function `words_for_bitcount_unchecked`: the addition wraps. -/
def words_for_bitcount_unchecked (c : Nat) : Nat := maj_bi ((c + minmask) % size_mod)

/-- The function `words_for_bitcount`. -/
def words_for_bitcount (c : Nat) : Except Exc Nat :=
  (throwing_add .bitspan_word_count_overflow c minmask).map maj_bi

/-- The `int` expression `(1 << k) - 1` converted to a word. Up to `k = 30` the
language fixes it; above that the platform does. -/
def int_mask (pl : platform) (k : Nat) : Nat :=
  if k ≤ 30 then 2 ^ k - 1 else pl.wide_mask k % size_mod

/-- The word expression `~w`. -/
def wnot (w : Nat) : Nat := size_mod - 1 - w % size_mod

/-- The word expression `W(val) << k`. -/
def wshl (val : Bool) (k : Nat) : Nat := ((if val then 1 else 0) <<< k) % size_mod

/-- The expression `(w >> k) & 1` converted to `bool`. -/
def bit_of (w k : Nat) : Bool := ((w >>> k) &&& 1) != 0

/-- The call `memset(base + start, byte, bytes)` for a byte of all zeros or all
ones: `fill` is the word that results, `bytes` a whole number of words. -/
def memset (mem : List Nat) (start : Nat) (fill : Nat) (bytes : Nat) : Except Exc (List Nat) :=
  if start + bytes / sizeof_W ≤ mem.length then
    .ok (mem.take start ++ List.replicate (bytes / sizeof_W) fill ++ mem.drop (start + bytes / sizeof_W))
  else .error .undefined_behaviour

/-- The call `memcpy(dst, src, bytes)` between two distinct blocks. -/
def memcpy (dst src : List Nat) (bytes : Nat) : Except Exc (List Nat) :=
  if bytes / sizeof_W ≤ dst.length ∧ bytes / sizeof_W ≤ src.length then
    .ok (src.take (bytes / sizeof_W) ++ dst.drop (bytes / sizeof_W))
  else .error .undefined_behaviour

/-- A counted loop `for (size_t i = i0; ...; i++) body(i)` of `k` rounds over memory. -/
def word_loop (body : Nat → List Nat → Except Exc (List Nat)) :
    Nat → Nat → List Nat → Except Exc (List Nat)
  | 0, _, mem => .ok mem
  | k + 1, i, mem =>
    match body i mem with
    | .ok mem1 => word_loop body k (i + 1) mem1
    | .error e => .error e

/-- The statement `base[i] = f(base[i])`. -/
def update_word (f : Nat → Nat) (i : Nat) (mem : List Nat) : Except Exc (List Nat) :=
  match mem[i]? with
  | some w => .ok (mem.set i (f w))
  | none => .error .undefined_behaviour

/-- The statement `base[i] = f(base[i], o[i])`. -/
def combine_word (f : Nat → Nat → Nat) (o : List Nat) (i : Nat) (mem : List Nat) :
    Except Exc (List Nat) :=
  match mem[i]?, o[i]? with
  | some w, some x => .ok (mem.set i (f w x))
  | _, _ => .error .undefined_behaviour

/-- The proxy `bit_ref`: the word it points at (as an index into the memory of
the view it was taken from) and the bit offset inside it. -/
structure bit_ref where
  ptr : Nat
  min_idx : Nat
  deriving DecidableEq, Repr

namespace bit_ref

/-- The conversion `operator bool`. -/
def to_bool (r : bit_ref) (mem : List Nat) : Except Exc Bool :=
  match mem[r.ptr]? with
  | some w => .ok (bit_of w r.min_idx)
  | none => .error .undefined_behaviour

/-- The assignment `operator=(bool)`. -/
def assign (r : bit_ref) (val : Bool) (mem : List Nat) : Except Exc (List Nat) :=
  update_word (fun w => (w &&& wnot (wshl true r.min_idx)) ||| wshl val r.min_idx) r.ptr mem

end bit_ref

/-- The view `bitspan<W>`: the memory `_base` points into, and `_len`. -/
structure bitspan where
  base : List Nat
  len : Nat
  deriving DecidableEq, Repr

namespace bitspan

/-- The count `words().count()`. -/
def count (s : bitspan) : Nat := words_for_bitcount_unchecked s.len

/-- The function `residual_bitcount`. -/
def residual_bitcount (s : bitspan) : Nat := s.len &&& minmask

/-- The function `residual_mask`: `(1 << residual_bitcount()) - 1`. -/
def residual_mask (pl : platform) (s : bitspan) : Nat := int_mask pl s.residual_bitcount

/-- The indexed read `operator[]` of a read-only view. -/
def get (s : bitspan) (i : Nat) : Except Exc Bool :=
  if i > s.len then .error .out_of_range
  else match s.base[maj_bi i]? with
    | some w => .ok (bit_of w (min_bi i))
    | none => .error .undefined_behaviour

/-- The indexed access `operator[]` of a mutable view, which makes the proxy. -/
def ref (s : bitspan) (i : Nat) : Except Exc bit_ref :=
  if i > s.len then .error .out_of_range
  else .ok { ptr := maj_bi i, min_idx := min_bi i }

/-- The indexed write `s[i] = val` through a mutable view. -/
def set (s : bitspan) (i : Nat) (val : Bool) : Except Exc (List Nat) :=
  match s.ref i with
  | .error e => .error e
  | .ok r => r.assign val s.base

/-- The loop of `operator==`: `k` words from index `i`, leaving at the first
pair that differs. -/
def eq_loop (a b : List Nat) : Nat → Nat → Except Exc Bool
  | 0, _ => .ok true
  | k + 1, i =>
    match a[i]?, b[i]? with
    | some x, some y => if x != y then .ok false else eq_loop a b k (i + 1)
    | _, _ => .error .undefined_behaviour

/-- The comparison `operator==`. -/
def eq (pl : platform) (s o : bitspan) : Except Exc Bool :=
  if s.len != o.len then .ok false
  else
    let main_loop_words :=
      if s.residual_bitcount != 0 then (s.count + size_mod - 1) % size_mod else s.count
    match eq_loop s.base o.base main_loop_words 0 with
    | .error e => .error e
    | .ok false => .ok false
    | .ok true =>
      if s.residual_bitcount != 0 then
        let resmask := s.residual_mask pl
        let residx := (o.count + size_mod - 1) % size_mod
        match s.base[residx]?, o.base[residx]? with
        | some x, some y => .ok (!((x &&& resmask) != (y &&& resmask)))
        | _, _ => .error .undefined_behaviour
      else .ok true

/-- The function `_reset_word_range`. -/
def _reset_word_range (s : bitspan) (start stop : Nat) (val : Bool) : Except Exc (List Nat) :=
  memset s.base start (if val then size_mod - 1 else 0)
    ((((stop + size_mod - start) % size_mod) * sizeof_W) % size_mod)

/-- The function `invert`. -/
def invert (s : bitspan) : Except Exc (List Nat) :=
  word_loop (update_word wnot) s.count 0 s.base

/-- The function `ensure_ge_length`. -/
def ensure_ge_length (s o : bitspan) : Except Exc Unit :=
  if s.len < o.len then .error .bitspan_length_mismatch else .ok ()

/-- The operator `&=`. -/
def and_assign (pl : platform) (s o : bitspan) : Except Exc (List Nat) :=
  match s.ensure_ge_length o with
  | .error e => .error e
  | .ok _ =>
    let main_loop_words :=
      if o.residual_bitcount != 0 then (s.count + size_mod - 1) % size_mod else s.count
    match word_loop (combine_word (fun w x => w &&& x) o.base) main_loop_words 0 s.base with
    | .error e => .error e
    | .ok mem =>
      if o.residual_bitcount != 0 then
        let resmask := o.residual_mask pl
        let residx := (o.count + size_mod - 1) % size_mod
        match combine_word (fun w x => w &&& (x &&& resmask)) o.base residx mem with
        | .error e => .error e
        | .ok mem1 => _reset_word_range { s with base := mem1 } o.count s.count false
      else .ok mem

/-- The operator `|=`. -/
def or_assign (pl : platform) (s o : bitspan) : Except Exc (List Nat) :=
  match s.ensure_ge_length o with
  | .error e => .error e
  | .ok _ =>
    let main_loop_words :=
      if o.residual_bitcount != 0 then (s.count + size_mod - 1) % size_mod else s.count
    match word_loop (combine_word (fun w x => w ||| x) o.base) main_loop_words 0 s.base with
    | .error e => .error e
    | .ok mem =>
      if o.residual_bitcount != 0 then
        let resmask := o.residual_mask pl
        let residx := (o.count + size_mod - 1) % size_mod
        combine_word (fun w x => w ||| (x &&& resmask)) o.base residx mem
      else .ok mem

end bitspan

/-- The call `malloc(bytes)`: a block of uninitialised words, or null. -/
def malloc (pl : platform) (bytes : Nat) : Option (List Nat) :=
  if pl.grants bytes then
    some ((List.range (bytes / sizeof_W)).map (fun i => pl.junk i % size_mod))
  else none

/-- The call `realloc(old, bytes)`: the old words as far as they fit, then
uninitialised words, or null. -/
def realloc (pl : platform) (old : List Nat) (bytes : Nat) : Option (List Nat) :=
  if pl.grants bytes then
    some ((List.range (bytes / sizeof_W)).map (fun i =>
      match old[i]? with
      | some w => w
      | none => pl.junk i % size_mod))
  else none

/-- The vector `bitvec<W>`: the block `_base` owns, `_len` and `_cap`. -/
structure bitvec where
  base : List Nat
  len : Nat
  cap : Nat
  deriving DecidableEq, Repr

namespace bitvec

/-- The default constructor `bitvec()`. -/
def empty : bitvec := { base := [], len := 0, cap := 0 }

/-- The count `words().count()`. -/
def count (v : bitvec) : Nat := words_for_bitcount_unchecked v.len

/-- The function `deallocate`. -/
def deallocate (v : bitvec) : bitvec :=
  if v.cap = 0 then v else { v with cap := 0, base := [] }

/-- The function `reallocate`. -/
def reallocate (pl : platform) (v : bitvec) (bits : Nat) : Except Exc bitvec :=
  if bits = 0 then .ok v.deallocate
  else
    match words_for_bitcount bits with
    | .error e => .error e
    | .ok words =>
      match throwing_mul .bad_array_new_length words sizeof_W with
      | .error e => .error e
      | .ok bytes =>
        match (if v.cap != 0 then realloc pl v.base bytes else malloc pl bytes) with
        | none => .error .bad_alloc
        | some new_ptr =>
          match bits_in_words words with
          | .error e => .error e
          | .ok c => .ok { v with base := new_ptr, cap := c }

/-- The function `reserve_for_exact`; the capacity it returns is `cap` of the result. -/
def reserve_for_exact (pl : platform) (v : bitvec) (new_cap : Nat) : Except Exc bitvec :=
  if v.cap < new_cap then reallocate pl v new_cap else .ok v

/-- The function `reserve_for`. -/
def reserve_for (pl : platform) (v : bitvec) (new_cap : Nat) : Except Exc bitvec :=
  let amort_siz := if (v.len <<< 1) % size_mod ≥ v.len then (v.len <<< 1) % size_mod else SIZE_MAX
  reserve_for_exact pl v (max amort_siz new_cap)

/-- The function `resize`; it returns `new_len`, which is `len` of the result. -/
def resize (pl : platform) (v : bitvec) (new_len : Nat) : Except Exc bitvec :=
  match reserve_for pl v new_len with
  | .error e => .error e
  | .ok v1 =>
    match (if new_len > v1.len then
        memset v1.base v1.count 0
          ((((words_for_bitcount_unchecked new_len + size_mod - v1.count) % size_mod)
            * sizeof_W) % size_mod)
      else .ok v1.base) with
    | .error e => .error e
    | .ok mem =>
      if new_len != 0 then
        match words_for_bitcount_unchecked new_len with
        | 0 => .error .undefined_behaviour
        | last + 1 =>
          match update_word (fun w => w &&& int_mask pl (min_bi new_len)) last mem with
          | .error e => .error e
          | .ok mem1 => .ok { v1 with base := mem1, len := new_len }
      else .ok { v1 with base := mem, len := new_len }

/-- The copy assignment `operator=(bitvec const&)` from another object `o`. -/
def assign (pl : platform) (v o : bitvec) : Except Exc bitvec :=
  match reserve_for_exact pl v o.len with
  | .error e => .error e
  | .ok v1 =>
    match memcpy v1.base o.base ((o.count * sizeof_W) % size_mod) with
    | .error e => .error e
    | .ok mem => .ok { v1 with base := mem, len := o.len }

/-- The copy constructor `bitvec(bitvec const&)`. -/
def copy (pl : platform) (o : bitvec) : Except Exc bitvec := assign pl empty o

/-- The constructor `bitvec(size_t len)`. -/
def of_len (pl : platform) (len : Nat) : Except Exc bitvec := resize pl empty len

/-- The view `span()`. -/
def span (v : bitvec) : bitspan := { base := v.base, len := v.len }

/-- The indexed read `operator[]` of a read-only vector. -/
def get (v : bitvec) (i : Nat) : Except Exc Bool := v.span.get i

/-- The indexed read `bool(v[i])` of a mutable vector, through the proxy. -/
def get_mut (v : bitvec) (i : Nat) : Except Exc Bool :=
  match v.span.ref i with
  | .error e => .error e
  | .ok r => r.to_bool v.base

/-- The indexed write `v[i] = val`. -/
def set (v : bitvec) (i : Nat) (val : Bool) : Except Exc bitvec :=
  match v.span.ref i with
  | .error e => .error e
  | .ok r =>
    match r.assign val v.base with
    | .error e => .error e
    | .ok mem => .ok { v with base := mem }

/-- The comparison `operator==(bitvec const&)`. -/
def eq (pl : platform) (v o : bitvec) : Except Exc Bool := v.span.eq pl o.span

/-- The function `invert`. -/
def invert (v : bitvec) : Except Exc bitvec :=
  match v.span.invert with
  | .error e => .error e
  | .ok mem => .ok { v with base := mem }

/-- The operator `&=` with a view. -/
def and_assign (pl : platform) (v : bitvec) (o : bitspan) : Except Exc bitvec :=
  match v.span.and_assign pl o with
  | .error e => .error e
  | .ok mem => .ok { v with base := mem }

/-- The operator `|=` with a view. -/
def or_assign (pl : platform) (v : bitvec) (o : bitspan) : Except Exc bitvec :=
  match v.span.or_assign pl o with
  | .error e => .error e
  | .ok mem => .ok { v with base := mem }

/-- The operator `~`. -/
def not (pl : platform) (v : bitvec) : Except Exc bitvec :=
  match copy pl v with
  | .error e => .error e
  | .ok rslt => rslt.invert

/-- The operator `&` with another vector. -/
def and (pl : platform) (v o : bitvec) : Except Exc bitvec :=
  match copy pl v with
  | .error e => .error e
  | .ok rslt =>
    match resize pl rslt (max rslt.len o.span.len) with
    | .error e => .error e
    | .ok rslt1 => rslt1.and_assign pl o.span

/-- The operator `|` with another vector. -/
def or (pl : platform) (v o : bitvec) : Except Exc bitvec :=
  match copy pl v with
  | .error e => .error e
  | .ok rslt =>
    match resize pl rslt (max rslt.len o.span.len) with
    | .error e => .error e
    | .ok rslt1 => rslt1.or_assign pl o.span

end bitvec

/-- The states of a vector that the public operations produce: the capacity is
the bit size of the block, the length fits the capacity, and every word of the
block is a value of the word type. -/
def bitvec.wf (v : bitvec) : Prop :=
  v.cap = bits_per_word * v.base.length ∧ v.len ≤ v.cap ∧ v.cap < size_mod ∧
    ∀ w ∈ v.base, w < size_mod

instance (v : bitvec) : Decidable v.wf := by
  unfold bitvec.wf; infer_instance

/-- A platform whose allocator always succeeds and hands out blocks of all-ones
words, and whose 32-bit shift takes its count modulo 32 and wraps. -/
def pl_mod32 : platform :=
  { wide_mask := fun k => 2 ^ (k % 32) - 1, grants := fun _ => true, junk := fun _ => 2 ^ 64 - 1 }

namespace bit_ref

/-- The compound assignment `operator|=(bool)`. -/
def or_assign (r : bit_ref) (val : Bool) (mem : List Nat) : Except Exc (List Nat) :=
  update_word (fun w => w ||| wshl val r.min_idx) r.ptr mem

/-- The compound assignment `operator&=(bool)`. -/
def and_assign (r : bit_ref) (val : Bool) (mem : List Nat) : Except Exc (List Nat) :=
  update_word (fun w => w &&& wshl val r.min_idx) r.ptr mem

/-- The compound assignment `operator^=(bool)`. -/
def xor_assign (r : bit_ref) (val : Bool) (mem : List Nat) : Except Exc (List Nat) :=
  update_word (fun w => w ^^^ wshl val r.min_idx) r.ptr mem

end bit_ref

/-- How a call that writes ends: it returns and leaves a state; or an exception
leaves it, with the state at the throw; or its behaviour is undefined. -/
inductive outcome (σ : Type) where
  | returned (s : σ)
  | thrown (e : Exc) (s : σ)
  | undefined

/-- The result of a call without the state a throw leaves behind. -/
def outcome.to_except {σ : Type} : outcome σ → Except Exc σ
  | .returned s => .ok s
  | .thrown e _ => .error e
  | .undefined => .error .undefined_behaviour

namespace bitspan

/-- The operator `^=`; the memory of `o` is not the memory of `s`. -/
def xor_assign (pl : platform) (s o : bitspan) : Except Exc (List Nat) :=
  match s.ensure_ge_length o with
  | .error e => .error e
  | .ok _ =>
    let main_loop_words :=
      if o.residual_bitcount != 0 then (s.count + size_mod - 1) % size_mod else s.count
    match word_loop (combine_word (fun w x => w ^^^ x) o.base) main_loop_words 0 s.base with
    | .error e => .error e
    | .ok mem =>
      if o.residual_bitcount != 0 then
        let resmask := o.residual_mask pl
        let residx := (o.count + size_mod - 1) % size_mod
        combine_word (fun w x => w ^^^ (x &&& resmask)) o.base residx mem
      else .ok mem

/-- The function `set_from`; the memory of `o` is not the memory of `s`. -/
def set_from (pl : platform) (s o : bitspan) : Except Exc (List Nat) :=
  match s.ensure_ge_length o with
  | .error e => .error e
  | .ok _ =>
    let main_loop_words :=
      if o.residual_bitcount != 0 then (s.count + size_mod - 1) % size_mod else s.count
    match word_loop (combine_word (fun _ x => x) o.base) main_loop_words 0 s.base with
    | .error e => .error e
    | .ok mem =>
      if o.residual_bitcount != 0 then
        let resmask := o.residual_mask pl
        let residx := (o.count + size_mod - 1) % size_mod
        match combine_word (fun _ x => x &&& resmask) o.base residx mem with
        | .error e => .error e
        | .ok mem1 => _reset_word_range { s with base := mem1 } o.count s.count false
      else .ok mem

/-- An in-place operation together with the memory of `s` when it ends. Its
first statement is the check `ensure_ge_length`, which only reads: when the
check throws, the memory is the one the call found; when it passes, `op` runs,
and nothing in it throws. -/
def in_place_run (op : bitspan → bitspan → Except Exc (List Nat)) (s o : bitspan) :
    outcome (List Nat) :=
  match s.ensure_ge_length o with
  | .error e => .thrown e s.base
  | .ok _ =>
    match op s o with
    | .ok mem => .returned mem
    | .error _ => .undefined

end bitspan

namespace bitvec

/-- The function `reallocate`, with the vector as it is when the call ends. A
failed `realloc` leaves the old block as it was. -/
def reallocate_run (pl : platform) (v : bitvec) (bits : Nat) : outcome bitvec :=
  if bits = 0 then .returned v.deallocate
  else
    match words_for_bitcount bits with
    | .error e => .thrown e v
    | .ok words =>
      match throwing_mul .bad_array_new_length words sizeof_W with
      | .error e => .thrown e v
      | .ok bytes =>
        match (if v.cap != 0 then realloc pl v.base bytes else malloc pl bytes) with
        | none => .thrown .bad_alloc v
        | some new_ptr =>
          match bits_in_words words with
          | .error e => .thrown e { v with base := new_ptr }
          | .ok c => .returned { v with base := new_ptr, cap := c }

/-- The function `reserve_for_exact`, with the vector as it is when the call ends. -/
def reserve_for_exact_run (pl : platform) (v : bitvec) (new_cap : Nat) : outcome bitvec :=
  if v.cap < new_cap then reallocate_run pl v new_cap else .returned v

/-- The function `reserve_for`, with the vector as it is when the call ends. -/
def reserve_for_run (pl : platform) (v : bitvec) (new_cap : Nat) : outcome bitvec :=
  let amort_siz := if (v.len <<< 1) % size_mod ≥ v.len then (v.len <<< 1) % size_mod else SIZE_MAX
  reserve_for_exact_run pl v (max amort_siz new_cap)

/-- The statements of `resize` after the call of `reserve_for`. -/
def resize_tail (pl : platform) (v1 : bitvec) (new_len : Nat) : Except Exc bitvec :=
  match (if new_len > v1.len then
      memset v1.base v1.count 0
        ((((words_for_bitcount_unchecked new_len + size_mod - v1.count) % size_mod)
          * sizeof_W) % size_mod)
    else .ok v1.base) with
  | .error e => .error e
  | .ok mem =>
    if new_len != 0 then
      match words_for_bitcount_unchecked new_len with
      | 0 => .error .undefined_behaviour
      | last + 1 =>
        match update_word (fun w => w &&& int_mask pl (min_bi new_len)) last mem with
        | .error e => .error e
        | .ok mem1 => .ok { v1 with base := mem1, len := new_len }
    else .ok { v1 with base := mem, len := new_len }

/-- The function `resize`, with the vector as it is when the call ends: what
`reserve_for` throws leaves `resize` at once, and nothing after it throws. -/
def resize_run (pl : platform) (v : bitvec) (new_len : Nat) : outcome bitvec :=
  match reserve_for_run pl v new_len with
  | .thrown e s => .thrown e s
  | .undefined => .undefined
  | .returned v1 =>
    match resize_tail pl v1 new_len with
    | .ok v2 => .returned v2
    | .error _ => .undefined

/-- The function `truncate`; it returns the new length, which is `len` of the result. -/
def truncate (v : bitvec) (len : Nat) : bitvec := { v with len := min len v.len }

/-- The move constructor `bitvec(bitvec&&)`: the vector it builds, and what it
leaves in `o`. -/
def move (o : bitvec) : bitvec × bitvec :=
  ({ base := o.base, len := o.len, cap := o.cap }, { base := [], len := 0, cap := 0 })

/-- The move assignment `operator=(bitvec&&)` from another object: the block of
the vector is freed by its destructor, then the vector is move-constructed from
`o`. The vector after it, and what is left in `o`. -/
def move_assign (_v o : bitvec) : bitvec × bitvec := move o

/-- The operator `^=` with a view. -/
def xor_assign (pl : platform) (v : bitvec) (o : bitspan) : Except Exc bitvec :=
  match v.span.xor_assign pl o with
  | .error e => .error e
  | .ok mem => .ok { v with base := mem }

/-- The function `set_from` with a view. -/
def set_from (pl : platform) (v : bitvec) (o : bitspan) : Except Exc bitvec :=
  match v.span.set_from pl o with
  | .error e => .error e
  | .ok mem => .ok { v with base := mem }

/-- The vectors that the public operations produce, starting from the empty
vector; a view passed to an in-place operation is over words of the word type. -/
inductive reachable (pl : platform) : bitvec → Prop where
  | empty : reachable pl empty
  | of_len (n : Nat) (v : bitvec) : of_len pl n = .ok v → reachable pl v
  | resize (v : bitvec) (n : Nat) (v1 : bitvec) :
      reachable pl v → resize pl v n = .ok v1 → reachable pl v1
  | reserve_for (v : bitvec) (n : Nat) (v1 : bitvec) :
      reachable pl v → reserve_for pl v n = .ok v1 → reachable pl v1
  | reserve_for_exact (v : bitvec) (n : Nat) (v1 : bitvec) :
      reachable pl v → reserve_for_exact pl v n = .ok v1 → reachable pl v1
  | assign (d s r : bitvec) :
      reachable pl d → reachable pl s → assign pl d s = .ok r → reachable pl r
  | copy (s r : bitvec) : reachable pl s → copy pl s = .ok r → reachable pl r
  | move (o : bitvec) : reachable pl o → reachable pl (move o).1
  | moved_from (o : bitvec) : reachable pl o → reachable pl (move o).2
  | move_assign (v o : bitvec) :
      reachable pl v → reachable pl o → reachable pl (move_assign v o).1
  | move_assigned_from (v o : bitvec) :
      reachable pl v → reachable pl o → reachable pl (move_assign v o).2
  | truncate (v : bitvec) (n : Nat) : reachable pl v → reachable pl (truncate v n)
  | set (v : bitvec) (i : Nat) (b : Bool) (v1 : bitvec) :
      reachable pl v → v.set i b = .ok v1 → reachable pl v1
  | invert (v v1 : bitvec) : reachable pl v → v.invert = .ok v1 → reachable pl v1
  | and_assign (v : bitvec) (o : bitspan) (v1 : bitvec) :
      reachable pl v → (∀ w ∈ o.base, w < size_mod) → v.and_assign pl o = .ok v1 →
      reachable pl v1
  | or_assign (v : bitvec) (o : bitspan) (v1 : bitvec) :
      reachable pl v → (∀ w ∈ o.base, w < size_mod) → v.or_assign pl o = .ok v1 →
      reachable pl v1
  | xor_assign (v : bitvec) (o : bitspan) (v1 : bitvec) :
      reachable pl v → (∀ w ∈ o.base, w < size_mod) → v.xor_assign pl o = .ok v1 →
      reachable pl v1
  | set_from (v : bitvec) (o : bitspan) (v1 : bitvec) :
      reachable pl v → (∀ w ∈ o.base, w < size_mod) → v.set_from pl o = .ok v1 →
      reachable pl v1

end bitvec

/-- The function `std::countr_zero` on a word, for at most `fuel` bits. -/
def countr_zero_aux : Nat → Nat → Nat
  | 0, _ => 0
  | fuel + 1, w => if w % 2 = 1 then 0 else 1 + countr_zero_aux fuel (w / 2)

/-- The function `std::countr_zero` on a word: 64 for the word 0. -/
def countr_zero (w : Nat) : Nat := countr_zero_aux bits_per_word w

/-- The iterator `bitspan_iter<in, W>`. -/
structure bitspan_iter where
  span : bitspan
  idx : Nat
  current : Nat
  cur_idx : Nat
  deriving DecidableEq, Repr

/-- The function `bitspan::iter`. -/
def bitspan.iter (s : bitspan) : bitspan_iter :=
  { span := s, idx := 0, current := 0, cur_idx := bits_per_word }

namespace bitspan_iter

/-- The loop `while (current == 0)` of `next`, for at most `fuel` rounds: the
iterator after the loop, and whether `next` returned `nullopt` from inside it.
The result is `none` when the rounds are used up. -/
def refill (inb : Bool) : Nat → bitspan_iter → Option (Except Exc (bitspan_iter × Bool))
  | 0, it => if it.current == 0 then none else some (.ok (it, false))
  | fuel + 1, it =>
    if it.current == 0 then
      let idx := (it.idx + (bits_per_word + size_mod - it.cur_idx) % size_mod) % size_mod
      if idx > it.span.len then
        some (.ok ({ it with idx := idx, cur_idx := bits_per_word }, true))
      else
        match it.span.base[maj_bi idx]? with
        | none => some (.error .undefined_behaviour)
        | some w =>
          refill inb fuel
            { it with idx := idx, current := w ^^^ (if inb then 0 else size_mod - 1),
                      cur_idx := 0 }
    else some (.ok (it, false))

/-- The function `next`: what it returns and the iterator after the call. The
shift `current >>= shift` by the width of the word has no defined result. -/
def next (inb : Bool) (fuel : Nat) (it : bitspan_iter) :
    Option (Except Exc (Option Nat × bitspan_iter)) :=
  match refill inb fuel it with
  | none => none
  | some (.error e) => some (.error e)
  | some (.ok (it1, true)) => some (.ok (none, it1))
  | some (.ok (it1, false)) =>
    let shift := countr_zero it1.current + 1
    if shift ≥ bits_per_word then some (.error .undefined_behaviour)
    else
      some (.ok (some (((it1.idx + shift) % size_mod + size_mod - 1) % size_mod),
        { it1 with current := it1.current >>> shift, cur_idx := it1.cur_idx + shift,
                   idx := (it1.idx + shift) % size_mod }))

/-- The results of `n` calls of `next` in a row, each with `fuel` rounds. -/
def next_n (inb : Bool) (fuel : Nat) : Nat → bitspan_iter → Option (Except Exc (List (Option Nat)))
  | 0, _ => some (.ok [])
  | n + 1, it =>
    match next inb fuel it with
    | none => none
    | some (.error e) => some (.error e)
    | some (.ok (r, it1)) =>
      match next_n inb fuel n it1 with
      | none => none
      | some (.error e) => some (.error e)
      | some (.ok rs) => some (.ok (r :: rs))

end bitspan_iter

/-- The cursor `size_iterand<rev>`. -/
structure size_iterand where
  rev : Bool
  i : Nat
  deriving DecidableEq, Repr

namespace size_iterand

/-- The comparison `operator!=`. -/
def ne (a o : size_iterand) : Bool := a.i != o.i

/-- The dereference `operator*`. -/
def deref (a : size_iterand) : Nat := if a.rev then (a.i + size_mod - 1) % size_mod else a.i

/-- The increment `operator++`. -/
def incr (a : size_iterand) : size_iterand :=
  { a with i := if a.rev then (a.i + size_mod - 1) % size_mod else (a.i + 1) % size_mod }

/-- The loop `for (it = first; it != last; ++it)` collecting `*it`, for at most
`fuel` rounds; `none` when the rounds are used up. -/
def for_loop : Nat → size_iterand → size_iterand → Option (List Nat)
  | 0, it, last => if it.ne last then none else some []
  | fuel + 1, it, last =>
    if it.ne last then (for_loop fuel it.incr last).map (fun l => it.deref :: l) else some []

end size_iterand

/-- The range `indices`. -/
structure indices where
  len : Nat
  deriving DecidableEq, Repr

namespace indices

/-- The function `begin`. -/
def begin (_r : indices) : size_iterand := { rev := false, i := 0 }

/-- The function `end`. -/
def end_ (r : indices) : size_iterand := { rev := false, i := r.len }

/-- The function `rbegin`. -/
def rbegin (r : indices) : size_iterand := { rev := true, i := r.len }

/-- The function `rend`. -/
def rend (_r : indices) : size_iterand := { rev := true, i := 0 }

/-- The function `count`. -/
def count (r : indices) : Nat := r.len

end indices

/-- The constant `bitvec::min_cap`: `bits_in_words(128 / sizeof(W))`. -/
def bitvec.min_cap : Except Exc Nat := bits_in_words (128 / sizeof_W)

/-! ## Arithmetic of bit addresses -/

theorem maj_bi_eq (i : Nat) : maj_bi i = i / 64 := by
  simp [maj_bi, majshift, Nat.shiftRight_eq_div_pow]

theorem min_bi_eq (i : Nat) : min_bi i = i % 64 := by
  have h := Nat.and_pow_two_sub_one_eq_mod i 6
  simpa [min_bi, minmask] using h

theorem bit_of_eq (w k : Nat) : bit_of w k = w.testBit k := by
  simp [bit_of, Nat.testBit, Nat.and_comm]

theorem wfbu_eq (c : Nat) (h : c + 63 < 2 ^ 64) :
    words_for_bitcount_unchecked c = (c + 63) / 64 := by
  unfold words_for_bitcount_unchecked minmask size_mod
  rw [Nat.mod_eq_of_lt h, maj_bi_eq]

theorem words_for_bitcount_ok (c : Nat) (h : c + 63 < 2 ^ 64) :
    words_for_bitcount c = .ok ((c + 63) / 64) := by
  unfold words_for_bitcount throwing_add minmask size_mod
  rw [if_neg (by omega)]
  simp [Except.map, maj_bi_eq]

theorem wnot_testBit (w j : Nat) (hj : j < 64) : (wnot w).testBit j = !w.testBit j := by
  have h : w % 2 ^ 64 < 2 ^ 64 := Nat.mod_lt _ (by decide)
  have e : wnot w = 2 ^ 64 - (w % 2 ^ 64 + 1) := by unfold wnot size_mod; omega
  rw [e, Nat.testBit_two_pow_sub_succ h, Nat.testBit_mod_two_pow]
  simp [hj]

theorem wnot_lt (w : Nat) : wnot w < 2 ^ 64 := by
  unfold wnot size_mod; omega

theorem wnot_wnot (w : Nat) (h : w < 2 ^ 64) : wnot (wnot w) = w := by
  unfold wnot size_mod
  rw [Nat.mod_eq_of_lt h, Nat.mod_eq_of_lt (by omega)]
  omega

theorem wshl_eq (val : Bool) (k : Nat) (hk : k < 64) :
    wshl val k = if val then 2 ^ k else 0 := by
  cases val
  · simp [wshl]
  · have : 2 ^ k < 2 ^ 64 := Nat.pow_lt_pow_right (by decide) hk
    unfold wshl size_mod
    simp only [if_true, Nat.one_shiftLeft]
    exact Nat.mod_eq_of_lt this

/-! ## Allocation -/

theorem malloc_length (pl : platform) (bytes : Nat) (m : List Nat)
    (h : malloc pl bytes = some m) : m.length = bytes / 8 := by
  unfold malloc at h
  split at h
  · cases h; simp [sizeof_W]
  · cases h

theorem realloc_length (pl : platform) (old : List Nat) (bytes : Nat) (m : List Nat)
    (h : realloc pl old bytes = some m) : m.length = bytes / 8 := by
  unfold realloc at h
  split at h
  · cases h; simp [sizeof_W]
  · cases h

theorem reallocate_ok (pl : platform) (v v1 : bitvec) (bits : Nat) (hb : bits ≠ 0)
    (h : bitvec.reallocate pl v bits = .ok v1) :
    bits + 63 < 2 ^ 64 ∧ v1.len = v.len ∧ v1.cap = 64 * ((bits + 63) / 64) ∧
      v1.base.length = (bits + 63) / 64 := by
  unfold bitvec.reallocate at h
  rw [if_neg hb] at h
  by_cases hlt : bits + 63 < 2 ^ 64
  · rw [words_for_bitcount_ok bits hlt] at h
    have hm : ¬ ((bits + 63) / 64 * 8 ≥ 2 ^ 64) := by omega
    have hc : ¬ ((bits + 63) / 64 * 64 ≥ 2 ^ 64) := by omega
    simp only [throwing_mul, sizeof_W, size_mod, bits_in_words, bits_per_word, if_neg hm,
      if_neg hc] at h
    split at h
    · cases h
    · rename_i m hm2
      cases h
      refine ⟨hlt, rfl, by simp; omega, ?_⟩
      simp only
      split at hm2
      · rw [realloc_length pl _ _ _ hm2]; omega
      · rw [malloc_length pl _ _ hm2]; omega
  · exfalso
    have : words_for_bitcount bits = .error .bitspan_word_count_overflow := by
      unfold words_for_bitcount throwing_add minmask size_mod
      rw [if_pos (by omega)]; rfl
    rw [this] at h
    cases h

/-! ## Construction with a length -/

theorem of_len_zero (pl : platform) : bitvec.of_len pl 0 = .ok bitvec.empty := by
  simp [bitvec.of_len, bitvec.resize, bitvec.reserve_for, bitvec.reserve_for_exact, bitvec.empty]

theorem set_replicate_zero (w k : Nat) :
    (List.replicate w 0).set k 0 = List.replicate w 0 := by
  apply List.ext_getElem?
  intro i
  by_cases hik : k = i
  · subst hik
    by_cases hk : k < w
    · simp [List.getElem?_set, hk, List.getElem?_replicate]
    · simp [List.getElem?_set, hk, List.getElem?_replicate]
  · simp [List.getElem?_set, hik]

theorem of_len_pos (pl : platform) (n : Nat) (hn : n ≠ 0) (v : bitvec)
    (h : bitvec.of_len pl n = .ok v) :
    n + 63 < 2 ^ 64 ∧
      v = { base := List.replicate ((n + 63) / 64) 0, len := n, cap := 64 * ((n + 63) / 64) } := by
  unfold bitvec.of_len bitvec.resize bitvec.reserve_for bitvec.reserve_for_exact at h
  have e0 : (bitvec.empty.len <<< 1) % size_mod = 0 := by simp [bitvec.empty]
  simp only [e0] at h
  have e1 : bitvec.empty.len = 0 := rfl
  have e2 : bitvec.empty.cap = 0 := rfl
  simp only [e1, e2, ge_iff_le, le_refl, if_true, Nat.zero_max, Nat.pos_of_ne_zero hn] at h
  cases hr : bitvec.reallocate pl bitvec.empty n with
  | error e => rw [hr] at h; cases h
  | ok v1 =>
    rw [hr] at h
    obtain ⟨hlt, hl, hc, hbl⟩ := reallocate_ok pl _ _ n hn hr
    have hl0 : v1.len = 0 := hl
    have hcnt : v1.count = 0 := by
      unfold bitvec.count; rw [hl0]; decide
    have hw : 1 ≤ (n + 63) / 64 := by omega
    have hbytes : (((words_for_bitcount_unchecked n + size_mod - v1.count) % size_mod)
            * sizeof_W) % size_mod = (n + 63) / 64 * 8 := by
      rw [hcnt, wfbu_eq n hlt]; unfold size_mod sizeof_W; omega
    rw [hcnt] at hbytes
    simp only [hl0, gt_iff_lt, Nat.pos_of_ne_zero hn, if_true, hcnt, hbytes] at h
    have hms : memset v1.base 0 0 ((n + 63) / 64 * 8) = .ok (List.replicate ((n + 63) / 64) 0) := by
      unfold memset sizeof_W
      have : (n + 63) / 64 * 8 / 8 = (n + 63) / 64 := by omega
      rw [this, if_pos (by omega)]
      simp [← hbl]
    rw [hms] at h
    have hne : (n != 0) = true := by simpa using hn
    simp only [hne, if_true, wfbu_eq n hlt] at h
    obtain ⟨last, hlast⟩ : ∃ last, (n + 63) / 64 = last + 1 := ⟨(n + 63) / 64 - 1, by omega⟩
    rw [hlast] at h
    simp only [update_word] at h
    have hg : (List.replicate (last + 1) 0)[last]? = some 0 := by
      simp [List.getElem?_replicate]
    rw [hg] at h
    simp only [Nat.zero_and, set_replicate_zero] at h
    cases h
    refine ⟨hlt, ?_⟩
    cases v1
    simp_all

theorem get_replicate_zero (w n i : Nat) (hi : i < n) (hw : n ≤ 64 * w) :
    ({ base := List.replicate w 0, len := n } : bitspan).get i = .ok false := by
  unfold bitspan.get
  have h1 : ¬ (i > n) := by omega
  have h2 : (List.replicate w 0)[maj_bi i]? = some 0 := by
    rw [maj_bi_eq, List.getElem?_replicate, if_pos (by omega)]
  simp only [h1, if_false, h2, bit_of_eq, Nat.zero_testBit]

/-- C1: whenever the constructor `bitvec(n)` succeeds, the vector it yields has
length `n` and every bit below `n` reads `false`, through the read-only index
as well as through the proxy, whatever the allocator left in the block. -/
theorem bitvec_of_len_all_clear (pl : platform) (n : Nat) (v : bitvec)
    (h : bitvec.of_len pl n = .ok v) :
    v.len = n ∧ ∀ i, i < n → v.get i = .ok false ∧ v.get_mut i = .ok false := by
  by_cases hn : n = 0
  · subst hn
    rw [of_len_zero] at h
    cases h
    exact ⟨rfl, fun i hi => absurd hi (Nat.not_lt_zero i)⟩
  · obtain ⟨hlt, rfl⟩ := of_len_pos pl n hn v h
    refine ⟨rfl, fun i hi => ?_⟩
    have hw : n ≤ 64 * ((n + 63) / 64) := by omega
    have hg := get_replicate_zero ((n + 63) / 64) n i hi hw
    refine ⟨hg, ?_⟩
    unfold bitvec.get_mut bitspan.ref bit_ref.to_bool
    have h1 : ¬ (i > n) := by omega
    have h2 : (List.replicate ((n + 63) / 64) 0)[maj_bi i]? = some 0 := by
      rw [maj_bi_eq, List.getElem?_replicate, if_pos (by omega)]
    simp only [bitvec.span, h1, if_false, h2, bit_of_eq, Nat.zero_testBit]

theorem bitvec_of_len_all_clear_witness :
    bitvec.of_len pl_mod32 100 = .ok { base := [0, 0], len := 100, cap := 128 } ∧
      (({ base := [0, 0], len := 100, cap := 128 } : bitvec).len = 100 ∧
        ∀ i, i < 100 → ({ base := [0, 0], len := 100, cap := 128 } : bitvec).get i = .ok false ∧
          ({ base := [0, 0], len := 100, cap := 128 } : bitvec).get_mut i = .ok false) :=
  ⟨rfl, bitvec_of_len_all_clear pl_mod32 100 _ rfl⟩

/-! ## Indexed access -/

theorem get_mut_eq_get (v : bitvec) (i : Nat) : v.get_mut i = v.get i := by
  unfold bitvec.get_mut bitvec.get bitspan.ref bitspan.get bit_ref.to_bool bitvec.span
  by_cases h : i > v.len
  · simp only [h, if_true]
  · simp only [h, if_false]

theorem span_get_of_word (mem : List Nat) (len i w : Nat) (hi : i ≤ len)
    (hw : mem[i / 64]? = some w) :
    ({ base := mem, len := len } : bitspan).get i = .ok (w.testBit (i % 64)) := by
  unfold bitspan.get
  have h1 : ¬ (i > len) := by omega
  simp only [h1, if_false, maj_bi_eq, hw, bit_of_eq, min_bi_eq]

theorem assigned_word_testBit (w k j : Nat) (b : Bool) (hk : k < 64) (hj : j < 64) :
    ((w &&& wnot (wshl true k)) ||| wshl b k).testBit j =
      if j = k then b else w.testBit j := by
  rw [Nat.testBit_or, Nat.testBit_and, wnot_testBit _ _ hj, wshl_eq true k hk, wshl_eq b k hk]
  simp only [if_true, Nat.testBit_two_pow]
  by_cases hjk : j = k
  · subst hjk; cases b <;> simp
  · have : ¬ (k = j) := fun e => hjk e.symm
    cases b <;> simp [hjk, this]

theorem wf_word_index (v : bitvec) (hwf : v.wf) (i : Nat) (hi : i < v.len) :
    i / 64 < v.base.length := by
  obtain ⟨hc, hl, _, _⟩ := hwf
  unfold bits_per_word at hc
  omega

/-- C2: on a vector of length `n`, the write `v[i] = b` at an index `i < n`
succeeds and keeps the length; afterwards bit `i` reads `b` and every other bit
`j < n` reads what it read before. -/
theorem bitvec_set_then_get (v : bitvec) (i : Nat) (b : Bool) (hwf : v.wf) (hi : i < v.len) :
    ∃ v1, v.set i b = .ok v1 ∧ v1.len = v.len ∧ v1.get i = .ok b ∧ v1.get_mut i = .ok b ∧
      ∀ j, j < v.len → j ≠ i → v1.get j = v.get j ∧ v1.get_mut j = v.get_mut j := by
  have hidx := wf_word_index v hwf i hi
  obtain ⟨w, hw⟩ : ∃ w, v.base[i / 64]? = some w := ⟨v.base[i / 64], by simp [hidx]⟩
  have hk : i % 64 < 64 := Nat.mod_lt _ (by decide)
  obtain ⟨w1, hw1⟩ : ∃ w1, w1 = (w &&& wnot (wshl true (i % 64))) ||| wshl b (i % 64) :=
    ⟨_, rfl⟩
  have hbit : ∀ j, j < 64 → w1.testBit j = if j = i % 64 then b else w.testBit j := by
    intro j hj; rw [hw1]; exact assigned_word_testBit w _ j b hk hj
  have hset : v.set i b = .ok { v with base := v.base.set (i / 64) w1 } := by
    unfold bitvec.set bitspan.ref bit_ref.assign update_word bitvec.span
    have h1 : ¬ (i > v.len) := by omega
    simp only [h1, if_false, maj_bi_eq, min_bi_eq, hw, hw1]
  have hnew : ({ base := v.base.set (i / 64) w1, len := v.len } : bitspan).get i = .ok b := by
    rw [span_get_of_word _ v.len i w1 (Nat.le_of_lt hi) (by simp [List.getElem?_set, hidx]),
      hbit _ hk, if_pos rfl]
  refine ⟨_, hset, rfl, hnew, ?_, ?_⟩
  · rw [get_mut_eq_get]; exact hnew
  · intro j hj hne
    have hget : ({ v with base := v.base.set (i / 64) w1 } : bitvec).get j = v.get j := by
      have hjidx := wf_word_index v hwf j hj
      obtain ⟨x, hx⟩ : ∃ x, v.base[j / 64]? = some x := ⟨v.base[j / 64], by simp [hjidx]⟩
      have hold := span_get_of_word v.base v.len j x (Nat.le_of_lt hj) hx
      unfold bitvec.get bitvec.span
      rw [hold]
      by_cases hsame : i / 64 = j / 64
      · have hxw : x = w := by rw [← hsame, hw] at hx; cases hx; rfl
        subst hxw
        have hmod : j % 64 ≠ i % 64 := by omega
        rw [span_get_of_word _ v.len j w1 (Nat.le_of_lt hj)
          (by rw [← hsame]; simp [List.getElem?_set, hidx]),
          hbit _ (Nat.mod_lt _ (by decide)), if_neg hmod]
      · rw [span_get_of_word _ v.len j x (Nat.le_of_lt hj)
          (by simp [List.getElem?_set, hsame, hx])]
    exact ⟨hget, by rw [get_mut_eq_get, get_mut_eq_get, hget]⟩

theorem bitvec_set_then_get_witness :
    ∃ v1, ({ base := [0], len := 10, cap := 64 } : bitvec).set 3 true = .ok v1 ∧
      v1.len = 10 ∧ v1.get 3 = .ok true ∧ v1.get_mut 3 = .ok true ∧
      ∀ j, j < 10 → j ≠ 3 →
        v1.get j = ({ base := [0], len := 10, cap := 64 } : bitvec).get j ∧
        v1.get_mut j = ({ base := [0], len := 10, cap := 64 } : bitvec).get_mut j :=
  bitvec_set_then_get { base := [0], len := 10, cap := 64 } 3 true (by decide) (by decide)

/-- C3: at an index `i > n` the indexed read and the indexed write of a view
and of a vector of length `n` throw `out_of_range`; the write ends before a
proxy exists, so it has no resulting memory and no word is touched. -/
theorem index_beyond_len_out_of_range (s : bitspan) (v : bitvec) (i : Nat) (b : Bool)
    (hs : i > s.len) (hv : i > v.len) :
    s.get i = .error .out_of_range ∧ s.ref i = .error .out_of_range ∧
      s.set i b = .error .out_of_range ∧ v.get i = .error .out_of_range ∧
      v.get_mut i = .error .out_of_range ∧ v.set i b = .error .out_of_range := by
  have hv1 : i > v.span.len := hv
  refine ⟨?_, ?_, ?_, ?_, ?_, ?_⟩
  · unfold bitspan.get; rw [if_pos hs]
  · unfold bitspan.ref; rw [if_pos hs]
  · unfold bitspan.set bitspan.ref; rw [if_pos hs]
  · unfold bitvec.get bitspan.get; rw [if_pos hv1]
  · unfold bitvec.get_mut bitspan.ref; rw [if_pos hv1]
  · unfold bitvec.set bitspan.ref; rw [if_pos hv1]

theorem index_beyond_len_out_of_range_witness :
    ({ base := [5], len := 10 } : bitspan).get (2 ^ 64 - 3) = .error .out_of_range ∧
      ({ base := [5], len := 10 } : bitspan).ref (2 ^ 64 - 3) = .error .out_of_range ∧
      ({ base := [5], len := 10 } : bitspan).set (2 ^ 64 - 3) true = .error .out_of_range ∧
      ({ base := [5], len := 10, cap := 64 } : bitvec).get (2 ^ 64 - 3) = .error .out_of_range ∧
      ({ base := [5], len := 10, cap := 64 } : bitvec).get_mut (2 ^ 64 - 3)
        = .error .out_of_range ∧
      ({ base := [5], len := 10, cap := 64 } : bitvec).set (2 ^ 64 - 3) true
        = .error .out_of_range :=
  index_beyond_len_out_of_range { base := [5], len := 10 } { base := [5], len := 10, cap := 64 }
    (2 ^ 64 - 3) true (by decide) (by decide)

/-- The bounds check lets the index equal to the length through, on every view. -/
theorem ref_at_len_accepted (s : bitspan) :
    s.ref s.len = .ok { ptr := maj_bi s.len, min_idx := min_bi s.len } ∧
      s.get s.len ≠ .error .out_of_range := by
  unfold bitspan.ref bitspan.get
  simp only [gt_iff_lt, Nat.lt_irrefl, if_false, true_and]
  cases s.base[maj_bi s.len]? <;> simp

/-- C4 (fails on the code): on the vector `bitvec(10)` the read at the index
10, one past the end, returns `false`, and the write `v[10] = true` stores bit
10 of the first word; neither throws `out_of_range`. On `bitvec(64)` the read
at the index 64 passes the check and loads a word outside the block. -/
theorem index_at_len_not_rejected :
    bitvec.of_len pl_mod32 10 = .ok { base := [0], len := 10, cap := 64 } ∧
      ({ base := [0], len := 10, cap := 64 } : bitvec).get 10 = .ok false ∧
      ({ base := [0], len := 10, cap := 64 } : bitvec).get_mut 10 = .ok false ∧
      ({ base := [0], len := 10, cap := 64 } : bitvec).set 10 true
        = .ok { base := [1024], len := 10, cap := 64 } ∧
      bitvec.of_len pl_mod32 64 = .ok { base := [0], len := 64, cap := 64 } ∧
      ({ base := [0], len := 64, cap := 64 } : bitvec).get 64 = .error .undefined_behaviour :=
  ⟨rfl, rfl, rfl, rfl, rfl, rfl⟩

/-- C5 (fails on the code): two views of length 40 whose words differ in bit 20
alone. Where the 32-bit shift takes its count modulo 32, `residual_mask` is
`(1 << 8) - 1 = 255`, the comparison looks at bits 0 to 7 only and returns
`true`, although bit 20 reads `false` in one view and `true` in the other. -/
theorem eq_ignores_bits_above_int_mask :
    bitspan.residual_mask pl_mod32 { base := [0], len := 40 } = 255 ∧
      bitspan.eq pl_mod32 { base := [0], len := 40 } { base := [1048576], len := 40 }
        = .ok true ∧
      ({ base := [0], len := 40 } : bitspan).get 20 = .ok false ∧
      ({ base := [1048576], len := 40 } : bitspan).get 20 = .ok true :=
  ⟨rfl, rfl, rfl, rfl⟩

/-- C6 (fails on the code): `a` is `bitvec(64)` with bit 0 set, `b` is
`bitvec(64)`. In `a | b` the copy of `a` is resized to 64, where the mask
`(1 << min_bi(64)) - 1` is `0` and wipes the word, so bit 0 of `a | b` reads
`false` while bit 0 of `a` reads `true`. -/
theorem or_of_whole_word_vectors_drops_left_operand :
    bitvec.of_len pl_mod32 64 = .ok { base := [0], len := 64, cap := 64 } ∧
      ({ base := [0], len := 64, cap := 64 } : bitvec).set 0 true
        = .ok { base := [1], len := 64, cap := 64 } ∧
      int_mask pl_mod32 (min_bi 64) = 0 ∧
      (∃ r, bitvec.or pl_mod32 { base := [1], len := 64, cap := 64 }
          { base := [0], len := 64, cap := 64 } = .ok r ∧ r.len = 64 ∧ r.get 0 = .ok false) ∧
      ({ base := [1], len := 64, cap := 64 } : bitvec).get 0 = .ok true :=
  ⟨rfl, rfl, rfl, ⟨_, rfl, rfl, rfl⟩, rfl⟩

/-- C7 (fails on the code): `a` and `b` are both `bitvec(64)` with bit 0 set.
In `a & b` the copy of `a` is resized to 64, where the mask
`(1 << min_bi(64)) - 1` is `0` and wipes the word, so bit 0 of `a & b` reads
`false` while bit 0 reads `true` in both operands. -/
theorem and_of_whole_word_vectors_drops_left_operand :
    int_mask pl_mod32 (min_bi 64) = 0 ∧
      (∃ r, bitvec.and pl_mod32 { base := [1], len := 64, cap := 64 }
          { base := [1], len := 64, cap := 64 } = .ok r ∧ r.len = 64 ∧ r.get 0 = .ok false) ∧
      ({ base := [1], len := 64, cap := 64 } : bitvec).get 0 = .ok true :=
  ⟨rfl, ⟨_, rfl, rfl, rfl⟩, rfl⟩

/-! ## Copying and inverting -/

theorem word_loop_update (f : Nat → Nat) (k : Nat) :
    ∀ (i : Nat) (mem : List Nat), i + k ≤ mem.length →
      ∃ mem1, word_loop (update_word f) k i mem = .ok mem1 ∧ mem1.length = mem.length ∧
        ∀ j, mem1[j]? = if i ≤ j ∧ j < i + k then (mem[j]?).map f else mem[j]? := by
  induction k with
  | zero =>
    intro i mem _
    refine ⟨mem, rfl, rfl, fun j => ?_⟩
    rw [if_neg (by omega)]
  | succ k ih =>
    intro i mem h
    have hi : i < mem.length := by omega
    have hstep : update_word f i mem = .ok (mem.set i (f mem[i])) := by
      unfold update_word
      simp [List.getElem?_eq_getElem hi]
    obtain ⟨mem1, h1, h2, h3⟩ := ih (i + 1) (mem.set i (f mem[i])) (by simp; omega)
    refine ⟨mem1, ?_, by simpa using h2, fun j => ?_⟩
    · simp only [word_loop, hstep, h1]
    · rw [h3 j]
      by_cases hj : j = i
      · subst hj
        rw [if_neg (by omega), if_pos (by omega)]
        simp [List.getElem?_set, hi]
      · have hne : ¬ (i = j) := fun e => hj e.symm
        by_cases hr : i + 1 ≤ j ∧ j < i + 1 + k
        · rw [if_pos hr, if_pos (by omega)]
          simp [List.getElem?_set, hne]
        · rw [if_neg hr, if_neg (by omega)]
          simp [List.getElem?_set, hne]

theorem wf_count (v : bitvec) (hwf : v.wf) :
    v.len + 63 < 2 ^ 64 ∧ v.count = (v.len + 63) / 64 ∧ (v.len + 63) / 64 ≤ v.base.length := by
  obtain ⟨hc, hl, hlt, _⟩ := hwf
  unfold bits_per_word at hc
  unfold size_mod at hlt
  have h1 : v.len + 63 < 2 ^ 64 := by omega
  exact ⟨h1, wfbu_eq _ h1, by omega⟩

theorem copy_spec (pl : platform) (v : bitvec) (hwf : v.wf) :
    bitvec.copy pl v =
      if v.len = 0 ∨ pl.grants ((v.len + 63) / 64 * 8) = true then
        .ok { base := v.base.take ((v.len + 63) / 64), len := v.len,
              cap := 64 * ((v.len + 63) / 64) }
      else .error .bad_alloc := by
  obtain ⟨hlt, hcnt, hle⟩ := wf_count v hwf
  unfold bitvec.copy bitvec.assign bitvec.reserve_for_exact
  have e2 : bitvec.empty.cap = 0 := rfl
  by_cases h0 : v.len = 0
  · have hc0 : v.count = 0 := by rw [hcnt, h0]
    simp [e2, h0, hc0, memcpy, bitvec.empty]
  · have hpos : 0 < v.len := Nat.pos_of_ne_zero h0
    have hm : ¬ ((v.len + 63) / 64 * 8 ≥ 2 ^ 64) := by omega
    have hc : ¬ ((v.len + 63) / 64 * 64 ≥ 2 ^ 64) := by omega
    have hbytes : (v.count * sizeof_W) % size_mod = (v.len + 63) / 64 * 8 := by
      rw [hcnt]; unfold sizeof_W size_mod; omega
    have hdiv : (v.len + 63) / 64 * 8 / 8 = (v.len + 63) / 64 := by omega
    simp only [e2, hpos, if_true, bitvec.reallocate, h0, if_false,
      words_for_bitcount_ok v.len hlt, throwing_mul, sizeof_W, size_mod, if_neg hm,
      bits_in_words, bits_per_word, if_neg hc, false_or]
    by_cases hg : pl.grants ((v.len + 63) / 64 * 8) = true
    · have hb : (v.count * 8) % 18446744073709551616 = (v.len + 63) / 64 * 8 := hbytes
      simp [malloc, hg, memcpy, sizeof_W, hb, hdiv, hle, bitvec.empty]
      exact Nat.mul_comm _ _
    · simp [malloc, hg]

theorem invert_whole_block (mem : List Nat) (len : Nat) (hlt : len + 63 < 2 ^ 64)
    (hlen : mem.length = (len + 63) / 64) :
    ({ base := mem, len := len } : bitspan).invert = .ok (mem.map wnot) := by
  unfold bitspan.invert bitspan.count
  simp only [wfbu_eq len hlt]
  obtain ⟨mem1, h1, h2, h3⟩ := word_loop_update wnot ((len + 63) / 64) 0 mem (by omega)
  rw [h1]
  congr 1
  apply List.ext_getElem?
  intro j
  rw [h3 j, List.getElem?_map]
  by_cases hj : j < (len + 63) / 64
  · rw [if_pos (by omega)]
  · rw [if_neg (by omega)]
    have : mem[j]? = none := by simp; omega
    simp [this]

theorem not_spec (pl : platform) (v : bitvec) (hwf : v.wf) :
    bitvec.not pl v =
      if v.len = 0 ∨ pl.grants ((v.len + 63) / 64 * 8) = true then
        .ok { base := (v.base.take ((v.len + 63) / 64)).map wnot, len := v.len,
              cap := 64 * ((v.len + 63) / 64) }
      else .error .bad_alloc := by
  obtain ⟨hlt, hcnt, hle⟩ := wf_count v hwf
  unfold bitvec.not
  rw [copy_spec pl v hwf]
  by_cases hg : v.len = 0 ∨ pl.grants ((v.len + 63) / 64 * 8) = true
  · simp only [if_pos hg]
    unfold bitvec.invert bitvec.span
    simp only
    rw [invert_whole_block _ v.len hlt (by simp; omega)]
  · simp only [if_neg hg]

theorem not_wf (pl : platform) (v r : bitvec) (hwf : v.wf) (h : bitvec.not pl v = .ok r) :
    r.wf ∧ r.len = v.len ∧ r.base = (v.base.take ((v.len + 63) / 64)).map wnot := by
  obtain ⟨hlt, hcnt, hle⟩ := wf_count v hwf
  rw [not_spec pl v hwf] at h
  split at h
  · cases h
    refine ⟨⟨?_, ?_, ?_, ?_⟩, rfl, rfl⟩
    · simp [bits_per_word]; omega
    · simp only; omega
    · simp only [size_mod]; omega
    · intro w hw
      simp only [List.mem_map] at hw
      obtain ⟨x, _, rfl⟩ := hw
      exact wnot_lt x
  · cases h

/-- C8: when `~v` succeeds on a vector `v`, the result has the length of `v`
and, at every index below that length, reads the negation of what `v` reads.
The result is a fresh block: `v`, passed by value here, is not written. -/
theorem bitvec_not_negates_every_bit (pl : platform) (v r : bitvec) (hwf : v.wf)
    (h : bitvec.not pl v = .ok r) :
    r.len = v.len ∧ ∀ i, i < v.len → ∃ b, v.get i = .ok b ∧ r.get i = .ok (!b) := by
  obtain ⟨hlt, hcnt, hle⟩ := wf_count v hwf
  obtain ⟨_, hl, hb⟩ := not_wf pl v r hwf h
  refine ⟨hl, fun i hi => ?_⟩
  have hidx : i / 64 < v.base.length := wf_word_index v hwf i hi
  have hic : i / 64 < (v.len + 63) / 64 := by omega
  refine ⟨(v.base[i / 64]).testBit (i % 64), ?_, ?_⟩
  · exact span_get_of_word v.base v.len i _ (Nat.le_of_lt hi) (by simp [hidx])
  · have hw : r.base[i / 64]? = some (wnot v.base[i / 64]) := by
      rw [hb]
      simp [List.getElem?_map, List.getElem?_take, hic, hidx]
    unfold bitvec.get bitvec.span
    rw [hl, span_get_of_word r.base v.len i _ (Nat.le_of_lt hi) hw,
      wnot_testBit _ _ (Nat.mod_lt _ (by decide))]

theorem bitvec_not_negates_every_bit_witness :
    ({ base := [34359738368], len := 38, cap := 64 } : bitvec).wf ∧
      bitvec.not pl_mod32 { base := [34359738368], len := 38, cap := 64 }
        = .ok { base := [18446744039349813247], len := 38, cap := 64 } ∧
      (({ base := [18446744039349813247], len := 38, cap := 64 } : bitvec).len = 38 ∧
        ∀ i, i < 38 → ∃ b,
          ({ base := [34359738368], len := 38, cap := 64 } : bitvec).get i = .ok b ∧
          ({ base := [18446744039349813247], len := 38, cap := 64 } : bitvec).get i
            = .ok (!b)) :=
  ⟨by decide, rfl,
    bitvec_not_negates_every_bit pl_mod32 { base := [34359738368], len := 38, cap := 64 }
      { base := [18446744039349813247], len := 38, cap := 64 } (by decide) rfl⟩

/-! ## Comparison -/

theorem eq_loop_same (a b : List Nat) (k : Nat) :
    ∀ i, (∀ j, i ≤ j → j < i + k → ∃ x, a[j]? = some x ∧ b[j]? = some x) →
      bitspan.eq_loop a b k i = .ok true := by
  induction k with
  | zero => intro i _; rfl
  | succ k ih =>
    intro i h
    obtain ⟨x, hx, hy⟩ := h i (Nat.le_refl i) (by omega)
    have hrest := ih (i + 1) (fun j h1 h2 => h j (by omega) (by omega))
    simp only [bitspan.eq_loop, hx, hy, bne_self_eq_false, hrest]
    simp

theorem residual_bitcount_eq (s : bitspan) : s.residual_bitcount = s.len % 64 := by
  unfold bitspan.residual_bitcount
  exact min_bi_eq s.len

theorem span_eq_of_same_words (pl : platform) (a b : List Nat) (len : Nat)
    (hlt : len + 63 < 2 ^ 64)
    (h : ∀ j, j < (len + 63) / 64 → ∃ x, a[j]? = some x ∧ b[j]? = some x) :
    bitspan.eq pl { base := a, len := len } { base := b, len := len } = .ok true := by
  unfold bitspan.eq bitspan.count
  simp only [bne_self_eq_false, Bool.false_eq_true, if_false, residual_bitcount_eq,
    wfbu_eq len hlt]
  by_cases hr : len % 64 = 0
  · simp only [hr, bne_self_eq_false, Bool.false_eq_true, if_false]
    rw [eq_loop_same a b _ 0 (fun j _ h2 => h j (by omega))]
  · have hne : (len % 64 != 0) = true := by simpa using hr
    have hc : ((len + 63) / 64 + size_mod - 1) % size_mod = (len + 63) / 64 - 1 := by
      unfold size_mod; omega
    simp only [hne, if_true, hc]
    rw [eq_loop_same a b _ 0 (fun j _ h2 => h j (by omega))]
    obtain ⟨x, hx, hy⟩ := h ((len + 63) / 64 - 1) (by omega)
    simp only [hx, hy, bne_self_eq_false, Bool.not_false]

/-- C9: for every vector `v`, when both inversions succeed, the comparison
`~(~v) == v` returns `true`, whatever the residual bit count of `v` and whatever
the residual mask of the comparison evaluates to. -/
theorem double_not_compares_equal (pl : platform) (v r1 r2 : bitvec) (hwf : v.wf)
    (h1 : bitvec.not pl v = .ok r1) (h2 : bitvec.not pl r1 = .ok r2) :
    bitvec.eq pl r2 v = .ok true := by
  obtain ⟨hlt, hcnt, hle⟩ := wf_count v hwf
  obtain ⟨hwf1, hl1, hb1⟩ := not_wf pl v r1 hwf h1
  obtain ⟨_, hl2, hb2⟩ := not_wf pl r1 r2 hwf1 h2
  unfold bitvec.eq bitvec.span
  rw [hl2, hl1]
  apply span_eq_of_same_words pl r2.base v.base v.len hlt
  intro j hj
  have hjl : j < v.base.length := by omega
  have hv : v.base[j] < 2 ^ 64 := hwf.2.2.2 _ (List.getElem_mem _)
  refine ⟨v.base[j], ?_, by simp [hjl]⟩
  rw [hb2, hb1, hl1]
  simp [List.getElem?_map, List.getElem?_take, hj, hjl, wnot_wnot _ hv]

theorem double_not_compares_equal_witness :
    ({ base := [34359738368, 5], len := 102, cap := 128 } : bitvec).wf ∧
      bitvec.not pl_mod32 { base := [34359738368, 5], len := 102, cap := 128 }
        = .ok { base := [18446744039349813247, 18446744073709551610], len := 102, cap := 128 } ∧
      bitvec.not pl_mod32
          { base := [18446744039349813247, 18446744073709551610], len := 102, cap := 128 }
        = .ok { base := [34359738368, 5], len := 102, cap := 128 } ∧
      bitvec.eq pl_mod32 { base := [34359738368, 5], len := 102, cap := 128 }
        { base := [34359738368, 5], len := 102, cap := 128 } = .ok true :=
  ⟨by decide, rfl, rfl,
    double_not_compares_equal pl_mod32 { base := [34359738368, 5], len := 102, cap := 128 }
      { base := [18446744039349813247, 18446744073709551610], len := 102, cap := 128 }
      { base := [34359738368, 5], len := 102, cap := 128 } (by decide) rfl rfl⟩

/-- C10 (fails on the code): the vector `bitvec(4)` with bit 0 set is resized
to 64. The mask `(1 << min_bi(64)) - 1` is `0` and wipes the only word, so bit
0 reads `false` afterwards. On `bitvec(4)` inverted and resized to 8, the bits
4 to 7 that `invert` set stay in the word and read `true`. -/
theorem resize_growth_loses_or_leaks_bits :
    ({ base := [0], len := 4, cap := 64 } : bitvec).set 0 true
        = .ok { base := [1], len := 4, cap := 64 } ∧
      bitvec.resize pl_mod32 { base := [1], len := 4, cap := 64 } 64
        = .ok { base := [0], len := 64, cap := 64 } ∧
      ({ base := [1], len := 4, cap := 64 } : bitvec).get 0 = .ok true ∧
      ({ base := [0], len := 64, cap := 64 } : bitvec).get 0 = .ok false ∧
      ({ base := [0], len := 4, cap := 64 } : bitvec).invert
        = .ok { base := [18446744073709551615], len := 4, cap := 64 } ∧
      bitvec.resize pl_mod32 { base := [18446744073709551615], len := 4, cap := 64 } 8
        = .ok { base := [255], len := 8, cap := 64 } ∧
      ({ base := [255], len := 8, cap := 64 } : bitvec).get 4 = .ok true :=
  ⟨rfl, rfl, rfl, rfl, rfl, rfl, rfl⟩

theorem eq_loop_spec (a b : List Nat) (k : Nat) :
    ∀ i, i + k ≤ a.length → i + k ≤ b.length →
      ∃ r, bitspan.eq_loop a b k i = .ok r ∧
        (r = true ↔ ∀ j, i ≤ j → j < i + k → a[j]? = b[j]?) := by
  induction k with
  | zero =>
    intro i _ _
    exact ⟨true, rfl, by simp; intro j h1 h2; omega⟩
  | succ k ih =>
    intro i ha hb
    have hia : i < a.length := by omega
    have hib : i < b.length := by omega
    obtain ⟨r, hr, hiff⟩ := ih (i + 1) (by omega) (by omega)
    by_cases hxy : a[i] = b[i]
    · refine ⟨r, ?_, ?_⟩
      · simp only [bitspan.eq_loop, List.getElem?_eq_getElem hia, List.getElem?_eq_getElem hib,
          hxy, bne_self_eq_false, hr]
        simp
      · rw [hiff]
        constructor
        · intro h j h1 h2
          by_cases hj : j = i
          · subst hj
            rw [List.getElem?_eq_getElem hia, List.getElem?_eq_getElem hib, hxy]
          · exact h j (by omega) (by omega)
        · intro h j h1 h2
          exact h j (by omega) (by omega)
    · refine ⟨false, ?_, ?_⟩
      · have hne : (a[i] != b[i]) = true := by simpa using hxy
        simp only [bitspan.eq_loop, List.getElem?_eq_getElem hia, List.getElem?_eq_getElem hib,
          hne, if_true]
      · constructor
        · intro h; cases h
        · intro h
          exfalso
          have := h i (Nat.le_refl i) (by omega)
          rw [List.getElem?_eq_getElem hia, List.getElem?_eq_getElem hib] at this
          exact hxy (Option.some.inj this)

theorem masked_eq_iff (x y r : Nat) :
    (x &&& (2 ^ r - 1)) = (y &&& (2 ^ r - 1)) ↔ ∀ t, t < r → x.testBit t = y.testBit t := by
  constructor
  · intro h t ht
    have := congrArg (fun z => z.testBit t) h
    simpa [Nat.testBit_and, ht] using this
  · intro h
    apply Nat.eq_of_testBit_eq
    intro t
    simp only [Nat.testBit_and, Nat.testBit_two_pow_sub_one]
    by_cases ht : t < r
    · simp [ht, h t ht]
    · simp [ht]

theorem word_eq_iff (x y : Nat) (hx : x < 2 ^ 64) (hy : y < 2 ^ 64) :
    x = y ↔ ∀ t, t < 64 → x.testBit t = y.testBit t := by
  constructor
  · intro h t _; rw [h]
  · intro h
    apply Nat.eq_of_testBit_eq
    intro t
    by_cases ht : t < 64
    · exact h t ht
    · have h1 : x < 2 ^ t := Nat.lt_of_lt_of_le hx (Nat.pow_le_pow_right (by decide) (by omega))
      have h2 : y < 2 ^ t := Nat.lt_of_lt_of_le hy (Nat.pow_le_pow_right (by decide) (by omega))
      rw [Nat.testBit_lt_two_pow h1, Nat.testBit_lt_two_pow h2]

/-- Where the residual bit count is at most 30, so that the language fixes the
residual mask, `operator==` on two views with enough backing words decides
exactly: equal lengths and equal bits below the length. -/
theorem span_eq_iff_of_small_residual (pl : platform) (a b : bitspan)
    (hlt : a.len + 63 < 2 ^ 64)
    (hal : (a.len + 63) / 64 ≤ a.base.length) (hbl : (b.len + 63) / 64 ≤ b.base.length)
    (hav : ∀ w ∈ a.base, w < 2 ^ 64) (hbv : ∀ w ∈ b.base, w < 2 ^ 64)
    (hres : a.len % 64 ≤ 30) :
    ∃ r, a.eq pl b = .ok r ∧
      (r = true ↔ a.len = b.len ∧ ∀ i, i < a.len → a.get i = b.get i) := by
  by_cases hlen : a.len = b.len
  swap
  · refine ⟨false, ?_, by simp [hlen]⟩
    unfold bitspan.eq
    have : (a.len != b.len) = true := by simpa using hlen
    rw [if_pos this]
  obtain ⟨A, n⟩ := a
  obtain ⟨B, m⟩ := b
  simp only at hlt hal hbl hav hbv hres hlen ⊢
  subst hlen
  have hbits : ∀ i, i < n →
      ((({ base := A, len := n } : bitspan).get i = ({ base := B, len := n } : bitspan).get i) ↔
        ∀ (h1 : i / 64 < A.length) (h2 : i / 64 < B.length),
          (A[i / 64]).testBit (i % 64) = (B[i / 64]).testBit (i % 64)) := by
    intro i hi
    have h1 : i / 64 < A.length := by omega
    have h2 : i / 64 < B.length := by omega
    rw [span_get_of_word A n i A[i / 64] (Nat.le_of_lt hi) (by simp [h1]),
      span_get_of_word B n i B[i / 64] (Nat.le_of_lt hi) (by simp [h2])]
    constructor
    · intro h _ _; exact Except.ok.inj h
    · intro h; rw [h h1 h2]
  have hword : ∀ j (h1 : j < A.length) (h2 : j < B.length),
      (A[j]? = B[j]? ↔ ∀ t, t < 64 → (A[j]).testBit t = (B[j]).testBit t) := by
    intro j h1 h2
    rw [List.getElem?_eq_getElem h1, List.getElem?_eq_getElem h2]
    rw [← word_eq_iff _ _ (hav _ (List.getElem_mem _)) (hbv _ (List.getElem_mem _))]
    constructor
    · intro h; exact Option.some.inj h
    · intro h; rw [h]
  unfold bitspan.eq bitspan.count
  simp only [bne_self_eq_false, Bool.false_eq_true, if_false, residual_bitcount_eq,
    wfbu_eq n hlt, true_and]
  by_cases hr : n % 64 = 0
  · simp only [hr, bne_self_eq_false, Bool.false_eq_true, if_false]
    obtain ⟨r, hr1, hiff⟩ := eq_loop_spec A B ((n + 63) / 64) 0 (by omega) (by omega)
    refine ⟨r, ?_, ?_⟩
    · rw [hr1]; cases r <;> rfl
    · rw [hiff]
      constructor
      · intro h i hi
        rw [hbits i hi]
        intro h1 h2
        have := h (i / 64) (Nat.zero_le _) (by omega)
        rw [hword _ h1 h2] at this
        exact this _ (Nat.mod_lt _ (by decide))
      · intro h j _ hj
        have h1 : j < A.length := by omega
        have h2 : j < B.length := by omega
        rw [hword j h1 h2]
        intro t ht
        have hi : 64 * j + t < n := by omega
        have := (hbits _ hi).1 (h _ hi)
        have e1 : (64 * j + t) / 64 = j := by omega
        have e2 : (64 * j + t) % 64 = t := by omega
        simp only [e1, e2] at this
        exact this h1 h2
  · have hne : (n % 64 != 0) = true := by simpa using hr
    have hc : ((n + 63) / 64 + size_mod - 1) % size_mod = (n + 63) / 64 - 1 := by
      unfold size_mod; omega
    have hmask : bitspan.residual_mask pl { base := A, len := n } = 2 ^ (n % 64) - 1 := by
      unfold bitspan.residual_mask int_mask
      rw [residual_bitcount_eq, if_pos hres]
    simp only [hne, if_true, hc, hmask]
    obtain ⟨r, hr1, hiff⟩ := eq_loop_spec A B ((n + 63) / 64 - 1) 0 (by omega) (by omega)
    have hlast : (n + 63) / 64 - 1 = n / 64 := by omega
    have h1 : n / 64 < A.length := by omega
    have h2 : n / 64 < B.length := by omega
    rw [hr1]
    cases r with
    | false =>
      refine ⟨false, rfl, ?_⟩
      constructor
      · intro h; cases h
      · intro h
        exfalso
        have : (false = true) := by
          rw [hiff]
          intro j _ hj
          have h3 : j < A.length := by omega
          have h4 : j < B.length := by omega
          rw [hword j h3 h4]
          intro t ht
          have hi : 64 * j + t < n := by omega
          have := (hbits _ hi).1 (h _ hi)
          have e1 : (64 * j + t) / 64 = j := by omega
          have e2 : (64 * j + t) % 64 = t := by omega
          simp only [e1, e2] at this
          exact this h3 h4
        cases this
    | true =>
      have hall := hiff.1 rfl
      simp only [hlast, List.getElem?_eq_getElem h1, List.getElem?_eq_getElem h2]
      refine ⟨_, rfl, ?_⟩
      simp only [Bool.not_eq_true', bne_eq_false_iff_eq, masked_eq_iff]
      constructor
      · intro h i hi
        rw [hbits i hi]
        intro h3 h4
        by_cases hlow : i / 64 < n / 64
        · have := hall (i / 64) (Nat.zero_le _) (by omega)
          rw [hword _ h3 h4] at this
          exact this _ (Nat.mod_lt _ (by decide))
        · have e : i / 64 = n / 64 := by omega
          have := h (i % 64) (by omega)
          simp only [e]
          exact this
      · intro h t ht
        have hi : 64 * (n / 64) + t < n := by omega
        have := (hbits _ hi).1 (h _ hi)
        have e1 : (64 * (n / 64) + t) / 64 = n / 64 := by omega
        have e2 : (64 * (n / 64) + t) % 64 = t := by omega
        simp only [e1, e2] at this
        exact this h1 h2

/-! ## The length check of the in-place operations -/

theorem combine_word_error (f : Nat → Nat → Nat) (o : List Nat) (i : Nat) (mem : List Nat)
    (e : Exc) (h : combine_word f o i mem = .error e) : e = .undefined_behaviour := by
  unfold combine_word at h
  split at h
  · cases h
  · cases h; rfl

theorem word_loop_error (body : Nat → List Nat → Except Exc (List Nat))
    (hbody : ∀ i m e, body i m = .error e → e = .undefined_behaviour) (k : Nat) :
    ∀ (i : Nat) (mem : List Nat) (e : Exc),
      word_loop body k i mem = .error e → e = .undefined_behaviour := by
  induction k with
  | zero => intro i mem e h; cases h
  | succ k ih =>
    intro i mem e h
    unfold word_loop at h
    split at h
    · exact ih _ _ _ h
    · rename_i e1 he1
      cases h
      exact hbody _ _ _ he1

theorem memset_error (mem : List Nat) (start fill bytes : Nat) (e : Exc)
    (h : memset mem start fill bytes = .error e) : e = .undefined_behaviour := by
  unfold memset at h
  split at h
  · cases h
  · cases h; rfl

theorem ensure_ge_length_ok (s o : bitspan) (h : ¬ s.len < o.len) :
    s.ensure_ge_length o = .ok () := by
  unfold bitspan.ensure_ge_length; rw [if_neg h]

theorem ensure_ge_length_error (s o : bitspan) (h : s.len < o.len) :
    s.ensure_ge_length o = .error .bitspan_length_mismatch := by
  unfold bitspan.ensure_ge_length; rw [if_pos h]

theorem and_assign_error (pl : platform) (s o : bitspan) (e : Exc) (hlen : ¬ s.len < o.len)
    (h : s.and_assign pl o = .error e) : e = .undefined_behaviour := by
  unfold bitspan.and_assign at h
  rw [ensure_ge_length_ok s o hlen] at h
  simp only at h
  split at h
  · rename_i e1 he1
    cases h
    exact word_loop_error _ (combine_word_error _ _) _ _ _ _ he1
  · split at h
    · split at h
      · rename_i e1 he1
        cases h
        exact combine_word_error _ _ _ _ _ he1
      · exact memset_error _ _ _ _ _ h
    · cases h

theorem set_from_error (pl : platform) (s o : bitspan) (e : Exc) (hlen : ¬ s.len < o.len)
    (h : s.set_from pl o = .error e) : e = .undefined_behaviour := by
  unfold bitspan.set_from at h
  rw [ensure_ge_length_ok s o hlen] at h
  simp only at h
  split at h
  · rename_i e1 he1
    cases h
    exact word_loop_error _ (combine_word_error _ _) _ _ _ _ he1
  · split at h
    · split at h
      · rename_i e1 he1
        cases h
        exact combine_word_error _ _ _ _ _ he1
      · exact memset_error _ _ _ _ _ h
    · cases h

theorem or_assign_error (pl : platform) (s o : bitspan) (e : Exc) (hlen : ¬ s.len < o.len)
    (h : s.or_assign pl o = .error e) : e = .undefined_behaviour := by
  unfold bitspan.or_assign at h
  rw [ensure_ge_length_ok s o hlen] at h
  simp only at h
  split at h
  · rename_i e1 he1
    cases h
    exact word_loop_error _ (combine_word_error _ _) _ _ _ _ he1
  · split at h
    · exact combine_word_error _ _ _ _ _ h
    · cases h

theorem xor_assign_error (pl : platform) (s o : bitspan) (e : Exc) (hlen : ¬ s.len < o.len)
    (h : s.xor_assign pl o = .error e) : e = .undefined_behaviour := by
  unfold bitspan.xor_assign at h
  rw [ensure_ge_length_ok s o hlen] at h
  simp only at h
  split at h
  · rename_i e1 he1
    cases h
    exact word_loop_error _ (combine_word_error _ _) _ _ _ _ he1
  · split at h
    · exact combine_word_error _ _ _ _ _ h
    · cases h

theorem in_place_run_spec (op : bitspan → bitspan → Except Exc (List Nat)) (s o : bitspan)
    (hthrow : s.len < o.len → op s o = .error .bitspan_length_mismatch)
    (hbody : ¬ s.len < o.len → ∀ e, op s o = .error e → e = .undefined_behaviour) :
    (bitspan.in_place_run op s o = .thrown .bitspan_length_mismatch s.base ↔ s.len < o.len) ∧
      (op s o = .error .bitspan_length_mismatch ↔ s.len < o.len) ∧
      (bitspan.in_place_run op s o).to_except = op s o := by
  by_cases hlen : s.len < o.len
  · have hrun : bitspan.in_place_run op s o = .thrown .bitspan_length_mismatch s.base := by
      unfold bitspan.in_place_run; rw [ensure_ge_length_error s o hlen]
    refine ⟨⟨fun _ => hlen, fun _ => hrun⟩, ⟨fun _ => hlen, fun _ => hthrow hlen⟩, ?_⟩
    rw [hrun, hthrow hlen]; rfl
  · have hrun : bitspan.in_place_run op s o =
        match op s o with
        | .ok mem => .returned mem
        | .error _ => .undefined := by
      unfold bitspan.in_place_run; rw [ensure_ge_length_ok s o hlen]
    cases hop : op s o with
    | ok mem =>
      rw [hop] at hrun
      refine ⟨⟨fun h => ?_, fun h => absurd h hlen⟩, ⟨fun h => ?_, fun h => absurd h hlen⟩, ?_⟩
      · rw [hrun] at h; cases h
      · cases h
      · rw [hrun]; rfl
    | error e =>
      have he := hbody hlen e hop
      subst he
      rw [hop] at hrun
      refine ⟨⟨fun h => ?_, fun h => absurd h hlen⟩, ⟨fun h => ?_, fun h => absurd h hlen⟩, ?_⟩
      · rw [hrun] at h; cases h
      · cases h
      · rw [hrun]; rfl

theorem and_assign_throws (pl : platform) (s o : bitspan) (h : s.len < o.len) :
    s.and_assign pl o = .error .bitspan_length_mismatch := by
  unfold bitspan.and_assign; rw [ensure_ge_length_error s o h]

theorem or_assign_throws (pl : platform) (s o : bitspan) (h : s.len < o.len) :
    s.or_assign pl o = .error .bitspan_length_mismatch := by
  unfold bitspan.or_assign; rw [ensure_ge_length_error s o h]

theorem xor_assign_throws (pl : platform) (s o : bitspan) (h : s.len < o.len) :
    s.xor_assign pl o = .error .bitspan_length_mismatch := by
  unfold bitspan.xor_assign; rw [ensure_ge_length_error s o h]

theorem set_from_throws (pl : platform) (s o : bitspan) (h : s.len < o.len) :
    s.set_from pl o = .error .bitspan_length_mismatch := by
  unfold bitspan.set_from; rw [ensure_ge_length_error s o h]

/-- C13: each of `&=`, `|=`, `^=` and `set_from` on views `s` and `o` ends with
the exception `bitspan_length_mismatch` if and only if `len(s) < len(o)`, and
at that throw the memory of `s` is the memory the call found; the operation
with its end state agrees with the operation as a plain result. -/
theorem in_place_length_check (pl : platform) (s o : bitspan) :
    ((bitspan.in_place_run (bitspan.and_assign pl) s o
          = .thrown .bitspan_length_mismatch s.base ↔ s.len < o.len) ∧
        (s.and_assign pl o = .error .bitspan_length_mismatch ↔ s.len < o.len) ∧
        (bitspan.in_place_run (bitspan.and_assign pl) s o).to_except = s.and_assign pl o) ∧
      ((bitspan.in_place_run (bitspan.or_assign pl) s o
          = .thrown .bitspan_length_mismatch s.base ↔ s.len < o.len) ∧
        (s.or_assign pl o = .error .bitspan_length_mismatch ↔ s.len < o.len) ∧
        (bitspan.in_place_run (bitspan.or_assign pl) s o).to_except = s.or_assign pl o) ∧
      ((bitspan.in_place_run (bitspan.xor_assign pl) s o
          = .thrown .bitspan_length_mismatch s.base ↔ s.len < o.len) ∧
        (s.xor_assign pl o = .error .bitspan_length_mismatch ↔ s.len < o.len) ∧
        (bitspan.in_place_run (bitspan.xor_assign pl) s o).to_except = s.xor_assign pl o) ∧
      ((bitspan.in_place_run (bitspan.set_from pl) s o
          = .thrown .bitspan_length_mismatch s.base ↔ s.len < o.len) ∧
        (s.set_from pl o = .error .bitspan_length_mismatch ↔ s.len < o.len) ∧
        (bitspan.in_place_run (bitspan.set_from pl) s o).to_except = s.set_from pl o) :=
  ⟨in_place_run_spec _ s o (and_assign_throws pl s o) (fun h e => and_assign_error pl s o e h),
    in_place_run_spec _ s o (or_assign_throws pl s o) (fun h e => or_assign_error pl s o e h),
    in_place_run_spec _ s o (xor_assign_throws pl s o) (fun h e => xor_assign_error pl s o e h),
    in_place_run_spec _ s o (set_from_throws pl s o) (fun h e => set_from_error pl s o e h)⟩

/-! ## In-place operations with a shorter operand -/

/-- C14 (fails on the code): `s` has length 128 over the two words `0, 0`; `o`
has length 4 over the single word of all ones (a `bitvec(4)` after `invert`).
The main loop of `|=` runs over the words of `s` but the last, so it combines
word 0 of `o` unmasked: bit 10 of `s`, at an index not below `len(o)`, reads
`true` afterwards. With `^=` word 0 of `o` is combined twice, once whole and
once masked, so bit 0 of `s` reads `false` where `false XOR true` is due. -/
theorem or_xor_assign_leak_residual_bits :
    bitspan.count { base := [0, 0], len := 128 } = 2 ∧
      bitspan.count { base := [18446744073709551615], len := 4 } = 1 ∧
      bitspan.or_assign pl_mod32 { base := [0, 0], len := 128 }
        { base := [18446744073709551615], len := 4 } = .ok [18446744073709551615, 0] ∧
      ({ base := [0, 0], len := 128 } : bitspan).get 10 = .ok false ∧
      ({ base := [18446744073709551615, 0], len := 128 } : bitspan).get 10 = .ok true ∧
      bitspan.xor_assign pl_mod32 { base := [0, 0], len := 128 }
        { base := [18446744073709551615], len := 4 } = .ok [18446744073709551600, 0] ∧
      ({ base := [18446744073709551615], len := 4 } : bitspan).get 0 = .ok true ∧
      ({ base := [18446744073709551600, 0], len := 128 } : bitspan).get 0 = .ok false ∧
      ({ base := [18446744073709551600, 0], len := 128 } : bitspan).get 10 = .ok true :=
  ⟨rfl, rfl, rfl, rfl, rfl, rfl, rfl, rfl, rfl⟩

/-- C15 (fails on the code): `s` has length 128 over the words `1, 1`; `o` has
length 64 and points into a block whose next word is all ones. With a residual
bit count of 0 the loop of `&=` runs over both words of `s` and nothing is
zero-extended: bit 64 of `s` still reads `true`. Where the block of `o` ends
after its one word, the loop reads outside of it. -/
theorem and_assign_whole_word_operand_not_zero_extended :
    bitspan.and_assign pl_mod32 { base := [1, 1], len := 128 }
        { base := [1, 18446744073709551615], len := 64 } = .ok [1, 1] ∧
      ({ base := [1, 1], len := 128 } : bitspan).get 64 = .ok true ∧
      bitspan.and_assign pl_mod32 { base := [1, 1], len := 128 } { base := [1], len := 64 }
        = .error .undefined_behaviour :=
  ⟨rfl, rfl, rfl⟩

/-- C16 (fails on the code): `s` has length 128 over the words `0, 0`; `o` has
length 64 and points into a block whose next word is all ones. With a residual
bit count of 0 the loop of `set_from` copies both words and nothing is
zero-extended: bit 64 of `s` reads `true` afterwards. Where the block of `o`
ends after its one word, the loop reads outside of it. -/
theorem set_from_whole_word_operand_not_zero_extended :
    bitspan.set_from pl_mod32 { base := [0, 0], len := 128 }
        { base := [1, 18446744073709551615], len := 64 } = .ok [1, 18446744073709551615] ∧
      ({ base := [1, 18446744073709551615], len := 128 } : bitspan).get 64 = .ok true ∧
      bitspan.set_from pl_mod32 { base := [0, 0], len := 128 } { base := [1], len := 64 }
        = .error .undefined_behaviour :=
  ⟨rfl, rfl, rfl⟩

/-! ## Writes through the proxy -/

theorem wshl_testBit (val : Bool) (k j : Nat) (hk : k < 64) :
    (wshl val k).testBit j = (val && decide (k = j)) := by
  rw [wshl_eq val k hk]
  cases val
  · simp
  · simp [Nat.testBit_two_pow]

/-- The proxy writes `=`, `|=` and `^=` on bit `k` of a word leave its other
bits and set bit `k` to `val`, `old OR val` and `old XOR val`. -/
theorem proxy_assign_or_xor_frame (w k j : Nat) (val : Bool) (hk : k < 64) (hj : j < 64) :
    ((w &&& wnot (wshl true k)) ||| wshl val k).testBit j
        = (if j = k then val else w.testBit j) ∧
      (w ||| wshl val k).testBit j = (if j = k then (w.testBit k || val) else w.testBit j) ∧
      (w ^^^ wshl val k).testBit j = (if j = k then xor (w.testBit k) val else w.testBit j) := by
  refine ⟨assigned_word_testBit w k j val hk hj, ?_, ?_⟩
  · rw [Nat.testBit_or, wshl_testBit val k j hk]
    by_cases hjk : j = k
    · subst hjk; simp
    · have : ¬ (k = j) := fun e => hjk e.symm
      simp [hjk, this]
  · rw [Nat.testBit_xor, wshl_testBit val k j hk]
    by_cases hjk : j = k
    · subst hjk; simp
    · have : ¬ (k = j) := fun e => hjk e.symm
      simp [hjk, this]

/-- C17 (fails on the code): on the word 3 the proxy for bit 0 runs `&= true`.
The statement `*ptr &= W(val) << min_idx` keeps bit 0 and clears every other
bit: the word becomes 1 and bit 1, which read `true`, reads `false`. -/
theorem proxy_and_assign_clears_other_bits :
    bit_ref.and_assign { ptr := 0, min_idx := 0 } true [3] = .ok [1] ∧
      bit_ref.to_bool { ptr := 0, min_idx := 1 } [3] = .ok true ∧
      bit_ref.to_bool { ptr := 0, min_idx := 1 } [1] = .ok false ∧
      bit_ref.or_assign { ptr := 0, min_idx := 0 } true [2] = .ok [3] ∧
      bit_ref.xor_assign { ptr := 0, min_idx := 0 } true [3] = .ok [2] ∧
      bit_ref.assign { ptr := 0, min_idx := 0 } false [3] = .ok [2] :=
  ⟨rfl, rfl, rfl, rfl, rfl, rfl⟩

/-! ## Reallocation keeps the vector well-formed -/

theorem reallocate_block (pl : platform) (v v1 : bitvec) (bits : Nat) (hb : bits ≠ 0)
    (h : bitvec.reallocate pl v bits = .ok v1) :
    bits + 63 < 2 ^ 64 ∧
      ∃ m, (if v.cap != 0 then realloc pl v.base ((bits + 63) / 64 * 8)
            else malloc pl ((bits + 63) / 64 * 8)) = some m ∧
        v1 = { base := m, len := v.len, cap := 64 * ((bits + 63) / 64) } := by
  have hlt := (reallocate_ok pl v v1 bits hb h).1
  refine ⟨hlt, ?_⟩
  unfold bitvec.reallocate at h
  rw [if_neg hb, words_for_bitcount_ok bits hlt] at h
  have hm : ¬ ((bits + 63) / 64 * 8 ≥ 2 ^ 64) := by omega
  have hc : ¬ ((bits + 63) / 64 * 64 ≥ 2 ^ 64) := by omega
  simp only [throwing_mul, sizeof_W, size_mod, bits_in_words, bits_per_word, if_neg hm,
    if_neg hc] at h
  split at h
  · cases h
  · rename_i m hm2
    cases h
    exact ⟨m, hm2, by rw [Nat.mul_comm]⟩

theorem malloc_words (pl : platform) (bytes : Nat) (m : List Nat)
    (h : malloc pl bytes = some m) : ∀ w ∈ m, w < size_mod := by
  unfold malloc at h
  split at h
  · cases h
    intro w hw
    simp only [List.mem_map] at hw
    obtain ⟨i, _, rfl⟩ := hw
    exact Nat.mod_lt _ (by decide)
  · cases h

theorem realloc_words (pl : platform) (old : List Nat) (bytes : Nat) (m : List Nat)
    (hold : ∀ w ∈ old, w < size_mod) (h : realloc pl old bytes = some m) :
    ∀ w ∈ m, w < size_mod := by
  unfold realloc at h
  split at h
  · cases h
    intro w hw
    simp only [List.mem_map] at hw
    obtain ⟨i, _, rfl⟩ := hw
    split
    · rename_i x hx
      exact hold x (List.getElem?_mem hx)
    · exact Nat.mod_lt _ (by decide)
  · cases h

theorem realloc_keeps (pl : platform) (old : List Nat) (bytes : Nat) (m : List Nat)
    (h : realloc pl old bytes = some m) (i x : Nat) (hi : i < m.length)
    (hx : old[i]? = some x) : m[i]? = some x := by
  have hl := realloc_length pl old bytes m h
  unfold realloc at h
  split at h
  · cases h
    have hi2 : i < bytes / sizeof_W := by simpa using hi
    simp [List.getElem?_map, List.getElem?_range hi2, hx]
  · cases h

theorem reallocate_wf (pl : platform) (v v1 : bitvec) (bits : Nat) (hwf : v.wf) (hb : bits ≠ 0)
    (h : bitvec.reallocate pl v bits = .ok v1) :
    v1.cap = bits_per_word * v1.base.length ∧ v1.cap < size_mod ∧
      (∀ w ∈ v1.base, w < size_mod) ∧ v1.len = v.len ∧ bits ≤ v1.cap ∧
      (∀ i x, i < v1.base.length → v.base[i]? = some x → v1.base[i]? = some x) := by
  obtain ⟨hlt, hl, hc, hbl⟩ := reallocate_ok pl v v1 bits hb h
  obtain ⟨_, m, hm, hv1⟩ := reallocate_block pl v v1 bits hb h
  have hbase : v1.base = m := by rw [hv1]
  refine ⟨?_, ?_, ?_, hl, ?_, ?_⟩
  · rw [hc, hbl]; rfl
  · rw [hc]; unfold size_mod; omega
  · rw [hbase]
    split at hm
    · exact realloc_words pl _ _ _ hwf.2.2.2 hm
    · exact malloc_words pl _ _ hm
  · rw [hc]; omega
  · intro i x hi hx
    rw [hbase] at hi ⊢
    split at hm
    · exact realloc_keeps pl _ _ _ hm i x hi hx
    · rename_i hcap
      have hcap0 : v.cap = 0 := by simpa using hcap
      have hlen0 : v.base.length = 0 := by
        have := hwf.1
        unfold bits_per_word at this
        omega
      have : i < v.base.length := (List.getElem?_eq_some.1 hx).1
      omega

theorem reserve_for_exact_wf (pl : platform) (v v1 : bitvec) (new_cap : Nat) (hwf : v.wf)
    (h : bitvec.reserve_for_exact pl v new_cap = .ok v1) :
    v1.wf ∧ v1.len = v.len ∧ new_cap ≤ v1.cap ∧ v.cap ≤ v1.cap ∧
      (∀ (i x : Nat), v.base[i]? = some x → v1.base[i]? = some x) := by
  unfold bitvec.reserve_for_exact at h
  split at h
  · rename_i hlt
    have hb : new_cap ≠ 0 := by omega
    obtain ⟨h1, h2, h3, h4, h5, h6⟩ := reallocate_wf pl v v1 new_cap hwf hb h
    have hcap : v.cap ≤ v1.cap := by omega
    refine ⟨⟨h1, ?_, h2, h3⟩, h4, h5, hcap, ?_⟩
    · rw [h4]; exact Nat.le_trans hwf.2.1 hcap
    · intro i x hx
      have hi : i < v.base.length := (List.getElem?_eq_some.1 hx).1
      have := hwf.1
      unfold bits_per_word at this h1
      exact h6 i x (by omega) hx
  · cases h
    exact ⟨hwf, rfl, by omega, Nat.le_refl _, fun _ _ hx => hx⟩

theorem reserve_for_wf (pl : platform) (v v1 : bitvec) (new_cap : Nat) (hwf : v.wf)
    (h : bitvec.reserve_for pl v new_cap = .ok v1) :
    v1.wf ∧ v1.len = v.len ∧ new_cap ≤ v1.cap ∧ v.cap ≤ v1.cap ∧
      (∀ (i x : Nat), v.base[i]? = some x → v1.base[i]? = some x) := by
  unfold bitvec.reserve_for at h
  obtain ⟨h1, h2, h3, h4, h5⟩ := reserve_for_exact_wf pl v v1 _ hwf h
  exact ⟨h1, h2, Nat.le_trans (Nat.le_max_right _ _) h3, h4, h5⟩

/-! ## Copy assignment -/

theorem assign_spec (pl : platform) (d s r : bitvec) (hd : d.wf) (hs : s.wf)
    (h : bitvec.assign pl d s = .ok r) :
    r.wf ∧ r.len = s.len ∧ d.cap ≤ r.cap ∧
      ∀ j, j < (s.len + 63) / 64 → ∃ x, r.base[j]? = some x ∧ s.base[j]? = some x := by
  obtain ⟨hlt, hcnt, hle⟩ := wf_count s hs
  unfold bitvec.assign at h
  cases hr : bitvec.reserve_for_exact pl d s.len with
  | error e => rw [hr] at h; cases h
  | ok v1 =>
    rw [hr] at h
    obtain ⟨hwf1, _, hcap, hdcap, _⟩ := reserve_for_exact_wf pl d v1 s.len hd hr
    have hbytes : (s.count * sizeof_W) % size_mod = (s.len + 63) / 64 * 8 := by
      rw [hcnt]; unfold sizeof_W size_mod; omega
    have hdiv : (s.len + 63) / 64 * 8 / sizeof_W = (s.len + 63) / 64 := by
      unfold sizeof_W; omega
    have hc1 := hwf1.1
    unfold bits_per_word at hc1
    have hle1 : (s.len + 63) / 64 ≤ v1.base.length := by omega
    simp only [hbytes, memcpy, hdiv, hle1, hle, and_self, if_true] at h
    cases h
    refine ⟨⟨?_, ?_, hwf1.2.2.1, ?_⟩, rfl, hdcap, ?_⟩
    · simp only [List.length_append, List.length_take, List.length_drop, bits_per_word]
      rw [Nat.min_eq_left hle]
      omega
    · exact hcap
    · intro w hw
      simp only [List.mem_append] at hw
      rcases hw with hw | hw
      · exact hs.2.2.2 w (List.mem_of_mem_take hw)
      · exact hwf1.2.2.2 w (List.mem_of_mem_drop hw)
    · intro j hj
      have hjs : j < s.base.length := by omega
      refine ⟨s.base[j], ?_, by simp [hjs]⟩
      simp only
      rw [List.getElem?_append_left (by simp; omega)]
      simp [List.getElem?_take, hj, hjs]

/-- C11: when the copy assignment `d = s` between two vectors succeeds, `d` has
the length of `s`, the comparison `d == s` returns `true`, every bit below the
length of `s` reads the same in both, and the capacity of `d` is not below its
length (nor below what it was). The source `s` is only read. On the branch
`this == &o` the vector is returned as it is, and it compares equal to itself. -/
theorem copy_assign_equals_source (pl : platform) (d s r : bitvec) (hd : d.wf) (hs : s.wf)
    (h : bitvec.assign pl d s = .ok r) :
    r.len = s.len ∧ bitvec.eq pl r s = .ok true ∧ (∀ i, i < s.len → r.get i = s.get i) ∧
      r.len ≤ r.cap ∧ d.cap ≤ r.cap ∧ bitvec.eq pl s s = .ok true := by
  obtain ⟨hlt, hcnt, hle⟩ := wf_count s hs
  obtain ⟨hwf, hl, hcap, hwords⟩ := assign_spec pl d s r hd hs h
  refine ⟨hl, ?_, ?_, hwf.2.1, hcap, ?_⟩
  rotate_left 2
  · exact span_eq_of_same_words pl s.base s.base s.len hlt
      (fun j hj =>
        have hjs : j < s.base.length := by omega
        ⟨s.base[j], by simp [hjs], by simp [hjs]⟩)
  · unfold bitvec.eq bitvec.span
    rw [hl]
    exact span_eq_of_same_words pl r.base s.base s.len hlt hwords
  · intro i hi
    obtain ⟨x, hx1, hx2⟩ := hwords (i / 64) (by omega)
    unfold bitvec.get bitvec.span
    rw [hl, span_get_of_word r.base s.len i x (Nat.le_of_lt hi) hx1,
      span_get_of_word s.base s.len i x (Nat.le_of_lt hi) hx2]

theorem copy_assign_equals_source_witness :
    ({ base := [1, 1, 1, 1], len := 200, cap := 256 } : bitvec).wf ∧
      ({ base := [3, 7, 9], len := 130, cap := 192 } : bitvec).wf ∧
      bitvec.assign pl_mod32 { base := [1, 1, 1, 1], len := 200, cap := 256 }
          { base := [3, 7, 9], len := 130, cap := 192 }
        = .ok { base := [3, 7, 9, 1], len := 130, cap := 256 } ∧
      (({ base := [3, 7, 9, 1], len := 130, cap := 256 } : bitvec).len
          = ({ base := [3, 7, 9], len := 130, cap := 192 } : bitvec).len ∧
        bitvec.eq pl_mod32 { base := [3, 7, 9, 1], len := 130, cap := 256 }
          { base := [3, 7, 9], len := 130, cap := 192 } = .ok true ∧
        (∀ i, i < ({ base := [3, 7, 9], len := 130, cap := 192 } : bitvec).len →
          ({ base := [3, 7, 9, 1], len := 130, cap := 256 } : bitvec).get i
            = ({ base := [3, 7, 9], len := 130, cap := 192 } : bitvec).get i) ∧
        ({ base := [3, 7, 9, 1], len := 130, cap := 256 } : bitvec).len
          ≤ ({ base := [3, 7, 9, 1], len := 130, cap := 256 } : bitvec).cap ∧
        ({ base := [1, 1, 1, 1], len := 200, cap := 256 } : bitvec).cap
          ≤ ({ base := [3, 7, 9, 1], len := 130, cap := 256 } : bitvec).cap ∧
        bitvec.eq pl_mod32 { base := [3, 7, 9], len := 130, cap := 192 }
          { base := [3, 7, 9], len := 130, cap := 192 } = .ok true) :=
  ⟨by decide, by decide, rfl,
    copy_assign_equals_source pl_mod32 { base := [1, 1, 1, 1], len := 200, cap := 256 }
      { base := [3, 7, 9], len := 130, cap := 192 }
      { base := [3, 7, 9, 1], len := 130, cap := 256 } (by decide) (by decide) rfl⟩

/-! ## Reservation and resizing with the state at the end of the call -/

theorem reallocate_run_agrees (pl : platform) (v : bitvec) (bits : Nat) :
    (bitvec.reallocate_run pl v bits).to_except = bitvec.reallocate pl v bits := by
  unfold bitvec.reallocate_run bitvec.reallocate
  by_cases hb : bits = 0
  · simp only [hb, if_true]; rfl
  · simp only [hb, if_false]
    cases words_for_bitcount bits with
    | error e => rfl
    | ok words =>
      simp only
      cases throwing_mul Exc.bad_array_new_length words sizeof_W with
      | error e => rfl
      | ok bytes =>
        simp only
        cases (if v.cap != 0 then realloc pl v.base bytes else malloc pl bytes) with
        | none => rfl
        | some new_ptr =>
          simp only
          cases bits_in_words words with
          | error e => rfl
          | ok c => rfl

theorem reserve_for_exact_run_agrees (pl : platform) (v : bitvec) (new_cap : Nat) :
    (bitvec.reserve_for_exact_run pl v new_cap).to_except
      = bitvec.reserve_for_exact pl v new_cap := by
  unfold bitvec.reserve_for_exact_run bitvec.reserve_for_exact
  by_cases h : v.cap < new_cap
  · simp only [h, if_true]; exact reallocate_run_agrees pl v new_cap
  · simp only [h, if_false]; rfl

theorem reserve_for_run_agrees (pl : platform) (v : bitvec) (new_cap : Nat) :
    (bitvec.reserve_for_run pl v new_cap).to_except = bitvec.reserve_for pl v new_cap := by
  unfold bitvec.reserve_for_run bitvec.reserve_for
  exact reserve_for_exact_run_agrees pl v _

theorem resize_eq_tail (pl : platform) (v : bitvec) (new_len : Nat) :
    bitvec.resize pl v new_len =
      match bitvec.reserve_for pl v new_len with
      | .error e => .error e
      | .ok v1 => bitvec.resize_tail pl v1 new_len := rfl

theorem update_word_error (f : Nat → Nat) (i : Nat) (mem : List Nat) (e : Exc)
    (h : update_word f i mem = .error e) : e = .undefined_behaviour := by
  unfold update_word at h
  split at h
  · cases h
  · cases h; rfl

theorem resize_tail_error (pl : platform) (v1 : bitvec) (new_len : Nat) (e : Exc)
    (h : bitvec.resize_tail pl v1 new_len = .error e) : e = .undefined_behaviour := by
  unfold bitvec.resize_tail at h
  split at h
  · rename_i e1 he1
    cases h
    split at he1
    · exact memset_error _ _ _ _ _ he1
    · cases he1
  · split at h
    · split at h
      · cases h; rfl
      · split at h
        · rename_i e1 he1
          cases h
          exact update_word_error _ _ _ _ he1
        · cases h
    · cases h

theorem resize_run_agrees (pl : platform) (v : bitvec) (new_len : Nat) :
    (bitvec.resize_run pl v new_len).to_except = bitvec.resize pl v new_len := by
  rw [resize_eq_tail, ← reserve_for_run_agrees]
  unfold bitvec.resize_run
  cases bitvec.reserve_for_run pl v new_len with
  | thrown e s => rfl
  | undefined => rfl
  | returned v1 =>
    simp only [outcome.to_except]
    cases ht : bitvec.resize_tail pl v1 new_len with
    | ok v2 => rfl
    | error e =>
      have := resize_tail_error pl v1 new_len e ht
      subst this
      rfl

theorem reallocate_run_overflow (pl : platform) (v : bitvec) (bits : Nat)
    (h : 2 ^ 64 ≤ bits + 63) :
    bitvec.reallocate_run pl v bits = .thrown .bitspan_word_count_overflow v := by
  unfold bitvec.reallocate_run
  have hb : bits ≠ 0 := by omega
  have hw : words_for_bitcount bits = .error .bitspan_word_count_overflow := by
    unfold words_for_bitcount throwing_add minmask size_mod
    rw [if_pos (by omega)]; rfl
  simp only [hb, if_false, hw]

theorem empty_wf : bitvec.empty.wf := by decide

theorem resize_run_overflow (pl : platform) (v : bitvec) (n : Nat) (hwf : v.wf)
    (hn : 2 ^ 64 ≤ n + 63) :
    bitvec.resize_run pl v n = .thrown .bitspan_word_count_overflow v := by
  obtain ⟨hc, _, hlt, _⟩ := hwf
  unfold bits_per_word at hc
  unfold size_mod at hlt
  unfold bitvec.resize_run bitvec.reserve_for_run bitvec.reserve_for_exact_run
  simp only
  have hmax : n ≤ max (if (v.len <<< 1) % size_mod ≥ v.len then (v.len <<< 1) % size_mod
      else SIZE_MAX) n := Nat.le_max_right _ _
  have hcap : v.cap < max (if (v.len <<< 1) % size_mod ≥ v.len then (v.len <<< 1) % size_mod
      else SIZE_MAX) n := by omega
  rw [if_pos hcap, reallocate_run_overflow pl v _ (by omega)]

/-- C12: for a bit count `n` with `n + (bits_per_word - 1)` above `SIZE_MAX`,
the constructor `bitvec(n)` and `resize(n)` on a vector end with the exception
`bitspan_word_count_overflow`, whatever the allocator would do, and at that
throw the vector is the one `resize` found: length, capacity and block. -/
theorem resize_overflow_leaves_vector (pl : platform) (v : bitvec) (n : Nat) (hwf : v.wf)
    (hn : SIZE_MAX < n + (bits_per_word - 1)) :
    bitvec.of_len pl n = .error .bitspan_word_count_overflow ∧
      bitvec.resize pl v n = .error .bitspan_word_count_overflow ∧
      bitvec.resize_run pl v n = .thrown .bitspan_word_count_overflow v := by
  have hn1 : 2 ^ 64 ≤ n + 63 := by
    unfold SIZE_MAX bits_per_word at hn; omega
  have h1 := resize_run_overflow pl v n hwf hn1
  have h2 := resize_run_overflow pl bitvec.empty n empty_wf hn1
  refine ⟨?_, ?_, h1⟩
  · unfold bitvec.of_len
    rw [← resize_run_agrees, h2]; rfl
  · rw [← resize_run_agrees, h1]; rfl

theorem resize_overflow_leaves_vector_witness :
    ({ base := [5], len := 10, cap := 64 } : bitvec).wf ∧
      SIZE_MAX < (2 ^ 64 - 3) + (bits_per_word - 1) ∧
      bitvec.of_len pl_mod32 (2 ^ 64 - 3) = .error .bitspan_word_count_overflow ∧
      bitvec.resize pl_mod32 { base := [5], len := 10, cap := 64 } (2 ^ 64 - 3)
        = .error .bitspan_word_count_overflow ∧
      bitvec.resize_run pl_mod32 { base := [5], len := 10, cap := 64 } (2 ^ 64 - 3)
        = .thrown .bitspan_word_count_overflow { base := [5], len := 10, cap := 64 } :=
  ⟨by decide, by decide,
    resize_overflow_leaves_vector pl_mod32 { base := [5], len := 10, cap := 64 } (2 ^ 64 - 3)
      (by decide) (by decide)⟩

/-! ## The index range -/

theorem for_loop_forward (n : Nat) (hn : n < 2 ^ 64) :
    ∀ (fuel i : Nat), i ≤ n → n - i ≤ fuel →
      size_iterand.for_loop fuel { rev := false, i := i } { rev := false, i := n }
        = some (List.range' i (n - i)) := by
  intro fuel
  induction fuel with
  | zero =>
    intro i hi hf
    have : i = n := by omega
    subst this
    simp [size_iterand.for_loop, size_iterand.ne]
  | succ fuel ih =>
    intro i hi hf
    by_cases he : i = n
    · subst he
      simp [size_iterand.for_loop, size_iterand.ne]
    · have hne : size_iterand.ne { rev := false, i := i } { rev := false, i := n } = true := by
        simpa [size_iterand.ne] using he
      have hinc : size_iterand.incr { rev := false, i := i } = { rev := false, i := i + 1 } := by
        simp only [size_iterand.incr, size_mod, Bool.false_eq_true, if_false]
        rw [Nat.mod_eq_of_lt (by omega)]
      have hlen : n - i = (n - (i + 1)) + 1 := by omega
      rw [size_iterand.for_loop, if_pos hne, hinc, ih (i + 1) (by omega) (by omega), hlen,
        List.range'_succ]
      simp [size_iterand.deref]

theorem for_loop_reverse :
    ∀ (fuel i : Nat), i ≤ fuel → i < 2 ^ 64 →
      size_iterand.for_loop fuel { rev := true, i := i } { rev := true, i := 0 }
        = some (List.range i).reverse := by
  intro fuel
  induction fuel with
  | zero =>
    intro i hi _
    have : i = 0 := by omega
    subst this
    simp [size_iterand.for_loop, size_iterand.ne]
  | succ fuel ih =>
    intro i hi hlt
    cases i with
    | zero => simp [size_iterand.for_loop, size_iterand.ne]
    | succ k =>
      have hne : size_iterand.ne { rev := true, i := k + 1 } { rev := true, i := 0 } = true := by
        simp [size_iterand.ne]
      have hpred : (k + 1 + size_mod - 1) % size_mod = k := by
        unfold size_mod; omega
      have hinc : size_iterand.incr { rev := true, i := k + 1 } = { rev := true, i := k } := by
        simp only [size_iterand.incr, if_true, hpred]
      rw [size_iterand.for_loop, if_pos hne, hinc, ih k (by omega) (by omega)]
      have hk : k % size_mod = k := Nat.mod_eq_of_lt (by unfold size_mod; omega)
      simp [size_iterand.deref, hpred, hk, List.range_succ]

/-- C19: for a length `n` of the size type and any number of rounds from `n`
on, the forward loop over `indices(n)` collects `0, 1, ..., n - 1` and the
reverse loop from `rbegin` to `rend` collects the same list reversed; for
`n = 0` both collect nothing. The range object is only read, so a second loop
over it collects the same list. -/
theorem indices_forward_and_reverse (n fuel : Nat) (hn : n < size_mod) (hf : n ≤ fuel) :
    size_iterand.for_loop fuel (indices.begin { len := n }) (indices.end_ { len := n })
        = some (List.range n) ∧
      size_iterand.for_loop fuel (indices.rbegin { len := n }) (indices.rend { len := n })
        = some (List.range n).reverse ∧
      size_iterand.for_loop fuel (indices.begin { len := 0 }) (indices.end_ { len := 0 })
        = some [] ∧
      size_iterand.for_loop fuel (indices.rbegin { len := 0 }) (indices.rend { len := 0 })
        = some [] := by
  have hn1 : n < 2 ^ 64 := hn
  refine ⟨?_, ?_, ?_, ?_⟩
  · have := for_loop_forward n hn1 fuel 0 (Nat.zero_le _) (by omega)
    simpa [indices.begin, indices.end_, List.range_eq_range'] using this
  · exact for_loop_reverse fuel n hf hn1
  · have := for_loop_forward 0 (by decide) fuel 0 (Nat.le_refl _) (by omega)
    simpa [indices.begin, indices.end_] using this
  · have := for_loop_reverse fuel 0 (Nat.zero_le _) (by decide)
    simpa [indices.rbegin, indices.rend] using this

theorem indices_forward_and_reverse_witness :
    (5 < size_mod ∧ 5 ≤ 5) ∧
      size_iterand.for_loop 5 (indices.begin { len := 5 }) (indices.end_ { len := 5 })
        = some [0, 1, 2, 3, 4] ∧
      size_iterand.for_loop 5 (indices.rbegin { len := 5 }) (indices.rend { len := 5 })
        = some [4, 3, 2, 1, 0] :=
  ⟨⟨by decide, by decide⟩,
    (indices_forward_and_reverse 5 5 (by decide) (by decide)).1,
    (indices_forward_and_reverse 5 5 (by decide) (by decide)).2.1⟩

/-! ## Writes keep the shape of the block -/

theorem update_word_shape (f : Nat → Nat) (i : Nat) (mem m : List Nat)
    (hf : ∀ w, w < size_mod → f w < size_mod) (h : update_word f i mem = .ok m) :
    m.length = mem.length ∧ ((∀ w ∈ mem, w < size_mod) → ∀ w ∈ m, w < size_mod) := by
  unfold update_word at h
  split at h
  · rename_i x hx
    cases h
    refine ⟨by simp, fun hv w hw => ?_⟩
    rcases List.mem_or_eq_of_mem_set hw with hw1 | hw1
    · exact hv w hw1
    · rw [hw1]; exact hf x (hv x (List.getElem?_mem hx))
  · cases h

theorem combine_word_shape (f : Nat → Nat → Nat) (o : List Nat) (i : Nat) (mem m : List Nat)
    (hf : ∀ w x, w < size_mod → x < size_mod → f w x < size_mod)
    (ho : ∀ w ∈ o, w < size_mod) (h : combine_word f o i mem = .ok m) :
    m.length = mem.length ∧ ((∀ w ∈ mem, w < size_mod) → ∀ w ∈ m, w < size_mod) := by
  unfold combine_word at h
  split at h
  · rename_i w x hw hx
    cases h
    refine ⟨by simp, fun hv y hy => ?_⟩
    rcases List.mem_or_eq_of_mem_set hy with hy1 | hy1
    · exact hv y hy1
    · rw [hy1]; exact hf w x (hv w (List.getElem?_mem hw)) (ho x (List.getElem?_mem hx))
  · cases h

theorem word_loop_shape (body : Nat → List Nat → Except Exc (List Nat))
    (hbody : ∀ i mem m, body i mem = .ok m →
      m.length = mem.length ∧ ((∀ w ∈ mem, w < size_mod) → ∀ w ∈ m, w < size_mod))
    (k : Nat) :
    ∀ (i : Nat) (mem m : List Nat), word_loop body k i mem = .ok m →
      m.length = mem.length ∧ ((∀ w ∈ mem, w < size_mod) → ∀ w ∈ m, w < size_mod) := by
  induction k with
  | zero =>
    intro i mem m h
    cases h
    exact ⟨rfl, fun hv => hv⟩
  | succ k ih =>
    intro i mem m h
    unfold word_loop at h
    split at h
    · rename_i mem1 h1
      obtain ⟨hl1, hv1⟩ := hbody i mem mem1 h1
      obtain ⟨hl2, hv2⟩ := ih (i + 1) mem1 m h
      exact ⟨by rw [hl2, hl1], fun hv => hv2 (hv1 hv)⟩
    · cases h

theorem memset_shape (mem : List Nat) (start fill bytes : Nat) (m : List Nat)
    (hfill : fill < size_mod) (h : memset mem start fill bytes = .ok m) :
    m.length = mem.length ∧ ((∀ w ∈ mem, w < size_mod) → ∀ w ∈ m, w < size_mod) := by
  unfold memset sizeof_W at h
  by_cases hle : start + bytes / 8 ≤ mem.length
  · rw [if_pos hle] at h
    cases h
    refine ⟨?_, fun hv w hw => ?_⟩
    · simp only [List.length_append, List.length_take, List.length_replicate, List.length_drop]
      omega
    · simp only [List.mem_append, List.mem_replicate] at hw
      rcases hw with (hw | hw) | hw
      · exact hv w (List.mem_of_mem_take hw)
      · rw [hw.2]; exact hfill
      · exact hv w (List.mem_of_mem_drop hw)
  · rw [if_neg hle] at h
    cases h

theorem and_mask_lt (m w : Nat) (h : w < size_mod) : w &&& m < size_mod :=
  Nat.lt_of_le_of_lt Nat.and_le_left h

theorem resize_tail_wf (pl : platform) (v1 v2 : bitvec) (n : Nat) (hwf : v1.wf)
    (hn : n ≤ v1.cap) (h : bitvec.resize_tail pl v1 n = .ok v2) :
    v2.wf ∧ v2.len = n ∧ v2.cap = v1.cap := by
  obtain ⟨hc, _, hlt, hv⟩ := hwf
  unfold bitvec.resize_tail at h
  split at h
  · cases h
  · rename_i mem hmem
    have hshape : mem.length = v1.base.length ∧ ∀ w ∈ mem, w < size_mod := by
      split at hmem
      · obtain ⟨h1, h2⟩ := memset_shape _ _ _ _ _ (by decide) hmem
        exact ⟨h1, h2 hv⟩
      · cases hmem; exact ⟨rfl, hv⟩
    split at h
    · split at h
      · cases h
      · split at h
        · cases h
        · rename_i mem1 hmem1
          cases h
          obtain ⟨h1, h2⟩ := update_word_shape _ _ _ _ (fun w hw => and_mask_lt _ w hw) hmem1
          exact ⟨⟨by simp only; rw [h1, hshape.1]; exact hc, hn, hlt, h2 hshape.2⟩, rfl, rfl⟩
    · cases h
      exact ⟨⟨by simp only; rw [hshape.1]; exact hc, hn, hlt, hshape.2⟩, rfl, rfl⟩

theorem resize_wf (pl : platform) (v v1 : bitvec) (n : Nat) (hwf : v.wf)
    (h : bitvec.resize pl v n = .ok v1) : v1.wf ∧ v1.len = n ∧ v.cap ≤ v1.cap := by
  rw [resize_eq_tail] at h
  cases hr : bitvec.reserve_for pl v n with
  | error e => rw [hr] at h; cases h
  | ok v0 =>
    rw [hr] at h
    obtain ⟨hwf0, _, hcap, hcap0, _⟩ := reserve_for_wf pl v v0 n hwf hr
    obtain ⟨h1, h2, h3⟩ := resize_tail_wf pl v0 v1 n hwf0 hcap h
    exact ⟨h1, h2, by omega⟩

theorem wshl_lt (val : Bool) (k : Nat) : wshl val k < size_mod :=
  Nat.mod_lt _ (by decide)

theorem or_lt_size (w x : Nat) (hw : w < size_mod) (hx : x < size_mod) : w ||| x < size_mod :=
  Nat.or_lt_two_pow hw hx

theorem xor_lt_size (w x : Nat) (hw : w < size_mod) (hx : x < size_mod) :
    w ^^^ x < size_mod :=
  Nat.xor_lt_two_pow hw hx

theorem set_wf (v v1 : bitvec) (i : Nat) (b : Bool) (hwf : v.wf) (h : v.set i b = .ok v1) :
    v1.wf ∧ v1.len = v.len ∧ v1.cap = v.cap := by
  obtain ⟨hc, hl, hlt, hv⟩ := hwf
  unfold bitvec.set at h
  split at h
  · cases h
  · rename_i r _
    split at h
    · cases h
    · rename_i mem hmem
      cases h
      unfold bit_ref.assign at hmem
      obtain ⟨h1, h2⟩ := update_word_shape _ _ _ _
        (fun w hw => or_lt_size _ _ (and_mask_lt _ w hw) (wshl_lt b r.min_idx)) hmem
      exact ⟨⟨by simp only; rw [h1]; exact hc, hl, hlt, h2 hv⟩, rfl, rfl⟩

theorem invert_wf (v v1 : bitvec) (hwf : v.wf) (h : v.invert = .ok v1) :
    v1.wf ∧ v1.len = v.len ∧ v1.cap = v.cap := by
  obtain ⟨hc, hl, hlt, hv⟩ := hwf
  unfold bitvec.invert at h
  split at h
  · cases h
  · rename_i mem hmem
    cases h
    unfold bitspan.invert at hmem
    obtain ⟨h1, h2⟩ := word_loop_shape _
      (fun i m m1 hm => update_word_shape wnot i m m1 (fun w _ => wnot_lt w) hm) _ _ _ _ hmem
    exact ⟨⟨by simp only; rw [h1]; exact hc, hl, hlt, h2 hv⟩, rfl, rfl⟩

theorem span_and_assign_shape (pl : platform) (s o : bitspan) (m : List Nat)
    (ho : ∀ w ∈ o.base, w < size_mod) (h : s.and_assign pl o = .ok m) :
    m.length = s.base.length ∧ ((∀ w ∈ s.base, w < size_mod) → ∀ w ∈ m, w < size_mod) := by
  unfold bitspan.and_assign at h
  split at h
  · cases h
  · simp only at h
    split at h
    · cases h
    · rename_i mem hmem
      obtain ⟨h1, h2⟩ := word_loop_shape _
        (fun i a b hab => combine_word_shape _ o.base i a b
          (fun w x hw _ => and_mask_lt x w hw) ho hab) _ _ _ _ hmem
      split at h
      · split at h
        · cases h
        · rename_i mem1 hmem1
          obtain ⟨h3, h4⟩ := combine_word_shape _ o.base _ mem mem1
            (fun w x hw _ => and_mask_lt _ w hw) ho hmem1
          unfold bitspan._reset_word_range at h
          obtain ⟨h5, h6⟩ := memset_shape _ _ _ _ _ (by decide) h
          exact ⟨by rw [h5]; simp only; rw [h3, h1], fun hv => h6 (h4 (h2 hv))⟩
      · cases h
        exact ⟨h1, h2⟩

theorem span_set_from_shape (pl : platform) (s o : bitspan) (m : List Nat)
    (ho : ∀ w ∈ o.base, w < size_mod) (h : s.set_from pl o = .ok m) :
    m.length = s.base.length ∧ ((∀ w ∈ s.base, w < size_mod) → ∀ w ∈ m, w < size_mod) := by
  unfold bitspan.set_from at h
  split at h
  · cases h
  · simp only at h
    split at h
    · cases h
    · rename_i mem hmem
      obtain ⟨h1, h2⟩ := word_loop_shape _
        (fun i a b hab => combine_word_shape _ o.base i a b
          (fun _ x _ hx => hx) ho hab) _ _ _ _ hmem
      split at h
      · split at h
        · cases h
        · rename_i mem1 hmem1
          obtain ⟨h3, h4⟩ := combine_word_shape _ o.base _ mem mem1
            (fun _ x _ hx => and_mask_lt _ x hx) ho hmem1
          unfold bitspan._reset_word_range at h
          obtain ⟨h5, h6⟩ := memset_shape _ _ _ _ _ (by decide) h
          exact ⟨by rw [h5]; simp only; rw [h3, h1], fun hv => h6 (h4 (h2 hv))⟩
      · cases h
        exact ⟨h1, h2⟩

theorem span_or_assign_shape (pl : platform) (s o : bitspan) (m : List Nat)
    (ho : ∀ w ∈ o.base, w < size_mod) (h : s.or_assign pl o = .ok m) :
    m.length = s.base.length ∧ ((∀ w ∈ s.base, w < size_mod) → ∀ w ∈ m, w < size_mod) := by
  unfold bitspan.or_assign at h
  split at h
  · cases h
  · simp only at h
    split at h
    · cases h
    · rename_i mem hmem
      obtain ⟨h1, h2⟩ := word_loop_shape _
        (fun i a b hab => combine_word_shape _ o.base i a b
          (fun w x hw hx => or_lt_size w x hw hx) ho hab) _ _ _ _ hmem
      split at h
      · obtain ⟨h3, h4⟩ := combine_word_shape _ o.base _ mem m
          (fun w x hw hx => or_lt_size w _ hw (and_mask_lt _ x hx)) ho h
        exact ⟨by rw [h3, h1], fun hv => h4 (h2 hv)⟩
      · cases h
        exact ⟨h1, h2⟩

theorem span_xor_assign_shape (pl : platform) (s o : bitspan) (m : List Nat)
    (ho : ∀ w ∈ o.base, w < size_mod) (h : s.xor_assign pl o = .ok m) :
    m.length = s.base.length ∧ ((∀ w ∈ s.base, w < size_mod) → ∀ w ∈ m, w < size_mod) := by
  unfold bitspan.xor_assign at h
  split at h
  · cases h
  · simp only at h
    split at h
    · cases h
    · rename_i mem hmem
      obtain ⟨h1, h2⟩ := word_loop_shape _
        (fun i a b hab => combine_word_shape _ o.base i a b
          (fun w x hw hx => xor_lt_size w x hw hx) ho hab) _ _ _ _ hmem
      split at h
      · obtain ⟨h3, h4⟩ := combine_word_shape _ o.base _ mem m
          (fun w x hw hx => xor_lt_size w _ hw (and_mask_lt _ x hx)) ho h
        exact ⟨by rw [h3, h1], fun hv => h4 (h2 hv)⟩
      · cases h
        exact ⟨h1, h2⟩

theorem in_place_wf (v : bitvec) (m : List Nat) (hwf : v.wf)
    (hshape : m.length = v.span.base.length ∧
      ((∀ w ∈ v.span.base, w < size_mod) → ∀ w ∈ m, w < size_mod)) :
    ({ v with base := m } : bitvec).wf := by
  obtain ⟨hc, hl, hlt, hv⟩ := hwf
  exact ⟨by simp only; rw [hshape.1]; exact hc, hl, hlt, hshape.2 hv⟩

/-! ## The invariant of the vector -/

theorem reachable_wf (pl : platform) (v : bitvec) (h : bitvec.reachable pl v) : v.wf := by
  induction h with
  | empty => exact empty_wf
  | of_len n v h => exact (resize_wf pl _ v n empty_wf h).1
  | resize v n v1 _ h ih => exact (resize_wf pl v v1 n ih h).1
  | reserve_for v n v1 _ h ih => exact (reserve_for_wf pl v v1 n ih h).1
  | reserve_for_exact v n v1 _ h ih => exact (reserve_for_exact_wf pl v v1 n ih h).1
  | assign d s r _ _ h ihd ihs => exact (assign_spec pl d s r ihd ihs h).1
  | copy s r _ h ih => exact (assign_spec pl _ s r empty_wf ih h).1
  | move o _ ih => exact ih
  | moved_from o _ _ => exact empty_wf
  | move_assign v o _ _ _ iho => exact iho
  | move_assigned_from v o _ _ _ _ => exact empty_wf
  | truncate v n _ ih =>
    obtain ⟨hc, hl, hlt, hv⟩ := ih
    exact ⟨hc, Nat.le_trans (Nat.min_le_right _ _) hl, hlt, hv⟩
  | set v i b v1 _ h ih => exact (set_wf v v1 i b ih h).1
  | invert v v1 _ h ih => exact (invert_wf v v1 ih h).1
  | and_assign v o v1 _ ho h ih =>
    unfold bitvec.and_assign at h
    split at h
    · cases h
    · rename_i m hm
      cases h
      exact in_place_wf v m ih (span_and_assign_shape pl _ o m ho hm)
  | or_assign v o v1 _ ho h ih =>
    unfold bitvec.or_assign at h
    split at h
    · cases h
    · rename_i m hm
      cases h
      exact in_place_wf v m ih (span_or_assign_shape pl _ o m ho hm)
  | xor_assign v o v1 _ ho h ih =>
    unfold bitvec.xor_assign at h
    split at h
    · cases h
    · rename_i m hm
      cases h
      exact in_place_wf v m ih (span_xor_assign_shape pl _ o m ho hm)
  | set_from v o v1 _ ho h ih =>
    unfold bitvec.set_from at h
    split at h
    · cases h
    · rename_i m hm
      cases h
      exact in_place_wf v m ih (span_set_from_shape pl _ o m ho hm)

/-- C20: every vector that the public operations produce from the empty vector
(construction with a length, `resize`, `reserve_for`, `reserve_for_exact`, copy
and move construction and assignment, `truncate`, and the operations that
write bits) has `cap() >= len()`, and `cap()` is the bit size of the words its
block holds. -/
theorem reachable_capacity_invariant (pl : platform) (v : bitvec)
    (h : bitvec.reachable pl v) :
    v.len ≤ v.cap ∧ v.cap = bits_per_word * v.base.length := by
  obtain ⟨hc, hl, _, _⟩ := reachable_wf pl v h
  exact ⟨hl, hc⟩

theorem reachable_capacity_invariant_witness :
    bitvec.reachable pl_mod32 { base := [0, 0], len := 70, cap := 128 } ∧
      ({ base := [0, 0], len := 70, cap := 128 } : bitvec).len
        ≤ ({ base := [0, 0], len := 70, cap := 128 } : bitvec).cap ∧
      ({ base := [0, 0], len := 70, cap := 128 } : bitvec).cap
        = bits_per_word * ({ base := [0, 0], len := 70, cap := 128 } : bitvec).base.length :=
  ⟨bitvec.reachable.truncate { base := [0, 0], len := 100, cap := 128 } 70
      (bitvec.reachable.of_len 100 _ rfl),
    reachable_capacity_invariant pl_mod32 { base := [0, 0], len := 70, cap := 128 }
      (bitvec.reachable.truncate { base := [0, 0], len := 100, cap := 128 } 70
        (bitvec.reachable.of_len 100 _ rfl))⟩

/-! ## The bit-scanning iterator -/

/-- C18 (fails on the code): the view of `bitvec(4)`, whose only word is 0, is
scanned for clear bits. The word is complemented whole, so the calls of `next`
return 0, 1, 2, 3 and go on with 4 and 5, positions that are not below the
length. The scan for set bits of the same vector after `invert` does the same. -/
theorem iter_returns_positions_beyond_len :
    bitspan_iter.next_n false 2 6 (bitspan.iter { base := [0], len := 4 })
        = some (.ok [some 0, some 1, some 2, some 3, some 4, some 5]) ∧
      bitspan_iter.next_n true 2 6 (bitspan.iter { base := [18446744073709551615], len := 4 })
        = some (.ok [some 0, some 1, some 2, some 3, some 4, some 5]) :=
  ⟨rfl, rfl⟩

/-! ## The growth policy -/

theorem amort_siz_eq (len : Nat) (hL : len < size_mod) :
    (if (len <<< 1) % size_mod ≥ len then (len <<< 1) % size_mod else SIZE_MAX)
      = min (2 * len) SIZE_MAX ∧
    (SIZE_MAX < 2 * len ↔ ¬ ((len <<< 1) % size_mod ≥ len)) := by
  have hs : len <<< 1 = 2 * len := by rw [Nat.shiftLeft_eq]; omega
  rw [hs]
  unfold size_mod at hL
  unfold size_mod SIZE_MAX
  by_cases h : 2 * len < 2 ^ 64
  · have hm : (2 * len) % 2 ^ 64 = 2 * len := Nat.mod_eq_of_lt h
    rw [hm]
    refine ⟨?_, ?_⟩
    · rw [if_pos (by omega)]; omega
    · omega
  · have hm : (2 * len) % 2 ^ 64 = 2 * len - 2 ^ 64 := by omega
    rw [hm]
    refine ⟨?_, ?_⟩
    · rw [if_neg (by omega)]; omega
    · omega

/-- C22: for a vector of length `L` and a requested capacity `c`, `reserve_for`
calls `reserve_for_exact` with `max(min(2 * L, SIZE_MAX), c)`, and the doubling
is replaced by `SIZE_MAX` exactly when `2 * L` is above `SIZE_MAX`;
`reserve_for_exact(x)` is `reallocate(x)` when `cap() < x` and leaves the
vector as it is otherwise, and the capacity it returns on success is at least
`x`. -/
theorem reserve_growth_policy (pl : platform) (v : bitvec) (c x : Nat)
    (hL : v.len < size_mod) :
    bitvec.reserve_for pl v c
        = bitvec.reserve_for_exact pl v (max (min (2 * v.len) SIZE_MAX) c) ∧
      (SIZE_MAX < 2 * v.len ↔ ¬ ((v.len <<< 1) % size_mod ≥ v.len)) ∧
      (v.cap < x → bitvec.reserve_for_exact pl v x = bitvec.reallocate pl v x) ∧
      (¬ v.cap < x → bitvec.reserve_for_exact pl v x = .ok v) ∧
      (∀ v1, bitvec.reserve_for_exact pl v x = .ok v1 → x ≤ v1.cap) := by
  obtain ⟨h1, h2⟩ := amort_siz_eq v.len hL
  refine ⟨?_, h2, ?_, ?_, ?_⟩
  · unfold bitvec.reserve_for
    simp only [h1]
  · intro h; unfold bitvec.reserve_for_exact; rw [if_pos h]
  · intro h; unfold bitvec.reserve_for_exact; rw [if_neg h]
  · intro v1 h
    unfold bitvec.reserve_for_exact at h
    by_cases hc : v.cap < x
    · rw [if_pos hc] at h
      obtain ⟨_, _, hcap, _⟩ := reallocate_ok pl v v1 x (by omega) h
      omega
    · rw [if_neg hc] at h
      cases h
      omega

theorem reserve_growth_policy_witness :
    (({ base := [0], len := 40, cap := 64 } : bitvec).len < size_mod) ∧
      bitvec.reserve_for pl_mod32 { base := [0], len := 40, cap := 64 } 100
        = .ok { base := [0, 18446744073709551615], len := 40, cap := 128 } ∧
      bitvec.reserve_for pl_mod32 { base := [0], len := 40, cap := 64 } 100
        = bitvec.reserve_for_exact pl_mod32 { base := [0], len := 40, cap := 64 }
            (max (min (2 * ({ base := [0], len := 40, cap := 64 } : bitvec).len) SIZE_MAX) 100) :=
  ⟨by decide, rfl,
    (reserve_growth_policy pl_mod32 { base := [0], len := 40, cap := 64 } 100 100
      (by decide)).1⟩

/-- C23 (fails on the code): `min_cap` is 1024 bits, and the vector `bitvec(3)`
has a capacity of 64 bits, one word. -/
theorem min_cap_not_applied :
    bitvec.min_cap = .ok 1024 ∧
      bitvec.of_len pl_mod32 3 = .ok { base := [0], len := 3, cap := 64 } ∧
      bitvec.resize pl_mod32 bitvec.empty 3 = .ok { base := [0], len := 3, cap := 64 } ∧
      ({ base := [0], len := 3, cap := 64 } : bitvec).cap < 1024 :=
  ⟨rfl, rfl, rfl, by decide⟩

/-- C23 (amended): for `n >= 1`, after `bitvec(n)`, which is the first
`resize(n)` on the empty vector, succeeds, `cap()` is `n` rounded up to whole
words: `bits_per_word * ceil(n / bits_per_word)`, at least `n` and less than
`n + bits_per_word`. No floor is applied. -/
theorem first_resize_capacity (pl : platform) (n : Nat) (v : bitvec) (hn : 1 ≤ n)
    (h : bitvec.resize pl bitvec.empty n = .ok v) :
    bitvec.of_len pl n = .ok v ∧
      v.cap = bits_per_word * ((n + (bits_per_word - 1)) / bits_per_word) ∧
      n ≤ v.cap ∧ v.cap < n + bits_per_word := by
  have h1 : bitvec.of_len pl n = .ok v := h
  obtain ⟨_, rfl⟩ := of_len_pos pl n (by omega) v h1
  refine ⟨h1, ?_, ?_, ?_⟩
  · simp only [bits_per_word]
  · simp only; omega
  · simp only [bits_per_word]; omega

theorem first_resize_capacity_witness :
    1 ≤ 70 ∧ bitvec.of_len pl_mod32 70 = .ok { base := [0, 0], len := 70, cap := 128 } ∧
      ({ base := [0, 0], len := 70, cap := 128 } : bitvec).cap
        = bits_per_word * ((70 + (bits_per_word - 1)) / bits_per_word) ∧
      70 ≤ ({ base := [0, 0], len := 70, cap := 128 } : bitvec).cap ∧
      ({ base := [0, 0], len := 70, cap := 128 } : bitvec).cap < 70 + bits_per_word :=
  ⟨by decide, first_resize_capacity pl_mod32 70 { base := [0, 0], len := 70, cap := 128 }
    (by decide) rfl⟩

/-! ## Word accesses at the end of the view -/

/-- C24 (fails on the code): the view of length 64 over its one word accepts
the index 64, `maj_bi(64)` is 1 and the count of words is 1, so the read and
the write address a word outside the block. The view of length 0 over no word
accepts the index 0 in the same way. -/
theorem accepted_index_addresses_word_outside :
    bitspan.ref { base := [0], len := 64 } 64 = .ok { ptr := 1, min_idx := 0 } ∧
      maj_bi 64 = 1 ∧ bitspan.count { base := [0], len := 64 } = 1 ∧
      bitspan.get { base := [0], len := 64 } 64 = .error .undefined_behaviour ∧
      bitspan.set { base := [0], len := 64 } 64 true = .error .undefined_behaviour ∧
      bitspan.ref { base := [], len := 0 } 0 = .ok { ptr := 0, min_idx := 0 } ∧
      bitspan.count { base := [], len := 0 } = 0 ∧
      bitspan.get { base := [], len := 0 } 0 = .error .undefined_behaviour :=
  ⟨rfl, rfl, rfl, rfl, rfl, rfl, rfl, rfl⟩

/-- C25 (fails on the code): on the view of length 0 over no word the first
call of `next` passes the test `idx > span.len()` with `idx = 0` and loads word
0, outside the block. On the view of length 64 over its one word, which is 0,
the first call loads word 0, finds nothing, passes the test with `idx = 64` and
loads word 1, outside the block. The calls end there, not for lack of rounds. -/
theorem iter_next_loads_word_outside :
    bitspan.count { base := [], len := 0 } = 0 ∧
      bitspan_iter.next true 5 (bitspan.iter { base := [], len := 0 })
        = some (.error .undefined_behaviour) ∧
      bitspan_iter.next false 5 (bitspan.iter { base := [], len := 0 })
        = some (.error .undefined_behaviour) ∧
      bitspan.count { base := [0], len := 64 } = 1 ∧
      bitspan_iter.next true 5 (bitspan.iter { base := [0], len := 64 })
        = some (.error .undefined_behaviour) :=
  ⟨rfl, rfl, rfl, rfl, rfl⟩

/-! ## The last word after `resize` -/

/-- C26 (fails on the code): `bitvec(128)` with bit 0 set is resized to 64. The
last word is then word 0 and the mask `(1 << min_bi(64)) - 1` is `0`, so the
word is wiped and bit 0 reads `false`. Resizing `bitvec(64)` with bit 0 set to
its own length 64 does the same. -/
theorem resize_to_whole_words_wipes_last_word :
    bitvec.of_len pl_mod32 128 = .ok { base := [0, 0], len := 128, cap := 128 } ∧
      ({ base := [0, 0], len := 128, cap := 128 } : bitvec).set 0 true
        = .ok { base := [1, 0], len := 128, cap := 128 } ∧
      ({ base := [1, 0], len := 128, cap := 128 } : bitvec).get 0 = .ok true ∧
      int_mask pl_mod32 (min_bi 64) = 0 ∧
      (∃ r, bitvec.resize pl_mod32 { base := [1, 0], len := 128, cap := 128 } 64 = .ok r ∧
        r.len = 64 ∧ r.get 0 = .ok false) ∧
      (∃ r, bitvec.resize pl_mod32 { base := [1], len := 64, cap := 64 } 64 = .ok r ∧
        r.len = 64 ∧ r.get 0 = .ok false) :=
  ⟨rfl, rfl, rfl, rfl, ⟨_, rfl, rfl, rfl⟩, ⟨_, rfl, rfl, rfl⟩⟩

theorem resize_tail_masked (pl : platform) (v0 v1 : bitvec) (n : Nat) (hn : n ≠ 0)
    (hlt : n + 63 < 2 ^ 64) (h : bitvec.resize_tail pl v0 n = .ok v1) :
    v1.len = n ∧ v1.cap = v0.cap ∧
      ∃ mem w, (if n > v0.len then
            memset v0.base v0.count 0
              ((((words_for_bitcount_unchecked n + size_mod - v0.count) % size_mod)
                * sizeof_W) % size_mod)
          else .ok v0.base) = .ok mem ∧
        mem[(n + 63) / 64 - 1]? = some w ∧
        v1.base = mem.set ((n + 63) / 64 - 1) (w &&& int_mask pl (n % 64)) := by
  unfold bitvec.resize_tail at h
  split at h
  · cases h
  · rename_i mem hmem
    have hne : (n != 0) = true := by simpa using hn
    simp only [hne, if_true, wfbu_eq n hlt] at h
    obtain ⟨last, hlast⟩ : ∃ last, (n + 63) / 64 = last + 1 := ⟨(n + 63) / 64 - 1, by omega⟩
    rw [hlast] at h
    simp only [update_word, min_bi_eq] at h
    cases hw : mem[last]? with
    | none => rw [hw] at h; cases h
    | some w =>
      rw [hw] at h
      cases h
      have hl : (n + 63) / 64 - 1 = last := by omega
      refine ⟨rfl, rfl, mem, w, hmem, ?_, ?_⟩
      · rw [hl]; exact hw
      · rw [hl]

theorem resize_spec (pl : platform) (v v1 : bitvec) (n : Nat) (hwf : v.wf) (hn : n ≠ 0)
    (h : bitvec.resize pl v n = .ok v1) :
    n + 63 < 2 ^ 64 ∧ v1.len = n ∧
      ∃ v0 mem w, bitvec.reserve_for pl v n = .ok v0 ∧
        (if n > v0.len then
            memset v0.base v0.count 0
              ((((words_for_bitcount_unchecked n + size_mod - v0.count) % size_mod)
                * sizeof_W) % size_mod)
          else .ok v0.base) = .ok mem ∧
        mem[(n + 63) / 64 - 1]? = some w ∧
        v1.base = mem.set ((n + 63) / 64 - 1) (w &&& int_mask pl (n % 64)) := by
  rw [resize_eq_tail] at h
  cases hr : bitvec.reserve_for pl v n with
  | error e => rw [hr] at h; cases h
  | ok v0 =>
    rw [hr] at h
    obtain ⟨hwf0, _, hcap, _, _⟩ := reserve_for_wf pl v v0 n hwf hr
    have hlt : n + 63 < 2 ^ 64 := by
      obtain ⟨hc, _, hcl, _⟩ := hwf0
      unfold bits_per_word at hc
      unfold size_mod at hcl
      omega
    obtain ⟨h1, _, mem, w, h2, h3, h4⟩ := resize_tail_masked pl v0 v1 n hn hlt h
    exact ⟨hlt, h1, v0, mem, w, rfl, h2, h3, h4⟩

/-- Where the mask of `resize` has no bit at or above the residual bit count,
which the language fixes for a count up to 30 and which also holds where the
32-bit shift takes its count modulo 32, every position between the new length
and the end of the last word holds 0 after `resize`. -/
theorem resize_clears_residual_of_mask (pl : platform) (v v1 : bitvec) (n : Nat) (hwf : v.wf)
    (h : bitvec.resize pl v n = .ok v1)
    (hmask : ∀ t, n % 64 ≤ t → (int_mask pl (n % 64)).testBit t = false) :
    ∀ p, n ≤ p → p < 64 * ((n + 63) / 64) →
      ∃ w, v1.base[p / 64]? = some w ∧ w.testBit (p % 64) = false := by
  intro p hp1 hp2
  have hn : n ≠ 0 := by omega
  obtain ⟨hlt, _, v0, mem, w, _, _, hw, hb⟩ := resize_spec pl v v1 n hwf hn h
  have hidx : p / 64 = (n + 63) / 64 - 1 := by omega
  have hlast : (n + 63) / 64 - 1 < mem.length := (List.getElem?_eq_some.1 hw).1
  refine ⟨w &&& int_mask pl (n % 64), ?_, ?_⟩
  · rw [hb, hidx]
    simp [List.getElem?_set, hlast]
  · rw [Nat.testBit_and, hmask (p % 64) (by omega)]
    simp

theorem int_mask_small (pl : platform) (k : Nat) (hk : k ≤ 30) (t : Nat) :
    (int_mask pl k).testBit t = decide (t < k) := by
  unfold int_mask
  rw [if_pos hk, Nat.testBit_two_pow_sub_one]

theorem int_mask_mod32 (k t : Nat) (hk : k < 64) (ht : k ≤ t) :
    (int_mask pl_mod32 k).testBit t = false := by
  unfold int_mask
  by_cases h : k ≤ 30
  · rw [if_pos h, Nat.testBit_two_pow_sub_one]
    simp; omega
  · rw [if_neg h]
    simp only [pl_mod32, size_mod]
    rw [Nat.testBit_mod_two_pow, Nat.testBit_two_pow_sub_one]
    have : ¬ (t < k % 32) := by omega
    simp [this]

/-- Where the mask of `resize` has every bit below the residual bit count,
which the language fixes for a count from 1 to 30, a `resize` to a length that
is not above the current one and not a multiple of 64 keeps every bit below
the new length. -/
theorem resize_keeps_bits_of_mask (pl : platform) (v v1 : bitvec) (n : Nat) (hwf : v.wf)
    (h : bitvec.resize pl v n = .ok v1) (hle : n ≤ v.len) (hk : n % 64 ≠ 0)
    (hmask : ∀ t, t < n % 64 → (int_mask pl (n % 64)).testBit t = true) :
    ∀ i, i < n → v1.get i = v.get i := by
  intro i hi
  have hn : n ≠ 0 := by omega
  obtain ⟨hlt, hl1, v0, mem, w, hr, hmem, hw, hb⟩ := resize_spec pl v v1 n hwf hn h
  obtain ⟨_, hl0, _, _, hkeep⟩ := reserve_for_wf pl v v0 n hwf hr
  have hnot : ¬ (n > v0.len) := by omega
  rw [if_neg hnot] at hmem
  cases hmem
  have hidx := wf_word_index v hwf i (by omega)
  obtain ⟨x, hx⟩ : ∃ x, v.base[i / 64]? = some x := ⟨v.base[i / 64], by simp [hidx]⟩
  have hx0 : v0.base[i / 64]? = some x := hkeep _ _ hx
  have hold : v.get i = .ok (x.testBit (i % 64)) :=
    span_get_of_word v.base v.len i x (by omega) hx
  have hlast : (n + 63) / 64 - 1 < v0.base.length := (List.getElem?_eq_some.1 hw).1
  rw [hold]
  unfold bitvec.get bitvec.span
  rw [hl1]
  by_cases hsame : i / 64 = (n + 63) / 64 - 1
  · have hwx : w = x := by
      rw [← hsame, hx0] at hw
      exact (Option.some.inj hw).symm
    subst hwx
    have hword : v1.base[i / 64]? = some (w &&& int_mask pl (n % 64)) := by
      rw [hb, hsame]
      simp [List.getElem?_set, hlast]
    rw [span_get_of_word v1.base n i _ (Nat.le_of_lt hi) hword, Nat.testBit_and,
      hmask (i % 64) (by omega)]
    simp
  · have hword : v1.base[i / 64]? = some x := by
      rw [hb]
      have : ¬ ((n + 63) / 64 - 1 = i / 64) := fun e => hsame e.symm
      simp [List.getElem?_set, this, hx0]
    rw [span_get_of_word v1.base n i _ (Nat.le_of_lt hi) hword]

theorem resize_clears_residual_small (pl : platform) (v v1 : bitvec) (n : Nat) (hwf : v.wf)
    (h : bitvec.resize pl v n = .ok v1) (hk : n % 64 ≤ 30) :
    ∀ p, n ≤ p → p < 64 * ((n + 63) / 64) →
      ∃ w, v1.base[p / 64]? = some w ∧ w.testBit (p % 64) = false :=
  resize_clears_residual_of_mask pl v v1 n hwf h
    (fun t ht => by rw [int_mask_small pl _ hk]; simp; omega)

theorem resize_clears_residual_mod32 (v v1 : bitvec) (n : Nat) (hwf : v.wf)
    (h : bitvec.resize pl_mod32 v n = .ok v1) :
    ∀ p, n ≤ p → p < 64 * ((n + 63) / 64) →
      ∃ w, v1.base[p / 64]? = some w ∧ w.testBit (p % 64) = false :=
  resize_clears_residual_of_mask pl_mod32 v v1 n hwf h
    (fun t ht => int_mask_mod32 _ t (Nat.mod_lt _ (by decide)) ht)

theorem resize_keeps_bits_small (pl : platform) (v v1 : bitvec) (n : Nat) (hwf : v.wf)
    (h : bitvec.resize pl v n = .ok v1) (hle : n ≤ v.len) (hk : n % 64 ≠ 0)
    (hk30 : n % 64 ≤ 30) :
    ∀ i, i < n → v1.get i = v.get i :=
  resize_keeps_bits_of_mask pl v v1 n hwf h hle hk
    (fun t ht => by rw [int_mask_small pl _ hk30]; simpa using ht)

